import Mathlib

/-!
Shallow embedding of the `sudoku` repository (src/bitfield.rs, src/digit.rs,
src/board.rs, src/path.rs, src/main.rs).

A `Bitfield` (src/bitfield.rs) is a `u128` whose low 81 bits encode a boolean
per cell of the 9x9 grid; we embed it as a `Nat` together with the source's
operations (`&`, `|`, `!` masked to 81 bits, `contains`, `is_empty`,
`len` = `u128::count_ones`).  Digits (src/digit.rs) are embedded by their
board index: the Rust enum value `Digit::_k` corresponds to the index `k - 1`
used by `Board`'s `Index` implementation, so a board is the list of nine
bitfields `placements`.
-/

set_option maxRecDepth 8000

namespace Sudoku

/-- The mask constant `MASK` of src/bitfield.rs: the low 81 bits set. -/
def MASK : Nat := 2 ^ 81 - 1

namespace Bitfield

/-- The single-bit value `1 << (9*row + col)` produced by `Bitfield::new`
once its range assertion has passed. -/
def cell (row col : Nat) : Nat := 1 <<< (9 * row + col)

/-- `Bitfield::new(row, col)` (src/bitfield.rs): asserts `row < 9 && col < 9`
(panicking otherwise, embedded as `none`) and returns the bitfield with
exactly the bit `9*row+col` set. -/
def new (row col : Nat) : Option Nat :=
  if row < 9 && col < 9 then some (cell row col) else none

/-- `Bitfield::is_empty` (src/bitfield.rs). -/
def is_empty (b : Nat) : Bool := b == 0

/-- `Bitfield::contains` (src/bitfield.rs): `other & self == other`. -/
def contains (self other : Nat) : Bool := other &&& self == other

/-- Fuel-indexed population count: adds the low bit and recurses on the
rest, `fuel` times.  `popcountAux 128 n` is `u128::count_ones` for any
`n < 2 ^ 128`. -/
def popcountAux : Nat → Nat → Nat
  | 0, _ => 0
  | fuel + 1, n => n % 2 + popcountAux fuel (n / 2)

/-- `Bitfield::len` (src/bitfield.rs): `u128::count_ones` of the backing
word. -/
def len (b : Nat) : Nat := popcountAux 128 b

/-- The `Not` implementation of src/bitfield.rs: complement of the backing
`u128` (bitwise xor with the all-ones 128-bit word), then `& MASK`. -/
def compl (b : Nat) : Nat := (b ^^^ (2 ^ 128 - 1)) &&& MASK

end Bitfield

/-- `Digit::iter` (src/digit.rs), with each `Digit::_k` embedded as the board
index `k - 1` that `Board`'s `Index` implementation derives from it. -/
def Digit.iter : List Nat := [0, 1, 2, 3, 4, 5, 6, 7, 8]

/-- `Digit::parse` (src/digit.rs), returning the board index of the parsed
digit: `'1' ↦ 0`, ..., `'9' ↦ 8`, anything else `none`. -/
def Digit.parse (ch : Char) : Option Nat :=
  match ch with
  | '1' => some 0
  | '2' => some 1
  | '3' => some 2
  | '4' => some 3
  | '5' => some 4
  | '6' => some 5
  | '7' => some 6
  | '8' => some 7
  | '9' => some 8
  | _ => none

/-- A `Board` (src/board.rs) is the array `placements: [Bitfield; 9]`,
indexed by digit index `0..9`. -/
abbrev Board := List Nat

/-- `board[digit]`: the bitfield of cells holding the digit of index `d`. -/
def Board.get (b : Board) (d : Nat) : Nat := List.getD b d 0

/-- `board[digit] = x`. -/
def Board.set (b : Board) (d : Nat) (x : Nat) : Board := List.set b d x

/-- `Board::empty` (src/board.rs). -/
def Board.empty : Board := [0, 0, 0, 0, 0, 0, 0, 0, 0]

/-- The loop body of `Board::valid` (src/board.rs), recursing over the
remaining digits with the accumulated union `total`. -/
def Board.validAux (b : Board) (total : Nat) : List Nat → Bool
  | [] => true
  | d :: rest =>
    let current := b.get d
    if Bitfield.len current > 9 then false
    else if !(Bitfield.is_empty (current &&& total)) then false
    else b.validAux (total ||| current) rest

/-- `Board::valid` (src/board.rs): every digit occupies at most nine cells
and no two digits share a cell. -/
def Board.valid (b : Board) : Bool := b.validAux 0 Digit.iter

/-- The `try_fold` body of `Board::parse` (src/board.rs): place character
`ch` (already known not to be `'.'`) at the cell bit `bit`. -/
def Board.place (b : Board) (bit : Nat) (ch : Char) : Option Board :=
  match Digit.parse ch with
  | none => none
  | some digit => some (b.set digit (b.get digit ||| bit))

/-- Folding `Board.place` over the enumerated non-`'.'` characters, as the
`filter_map` + `try_fold` of `Board::parse` does. -/
def Board.parseAux (b : Board) : List (Nat × Char) → Option Board
  | [] => some b
  | (idx, ch) :: rest =>
    if ch = '.' then b.parseAux rest
    else
      match b.place (Bitfield.cell (idx / 9) (idx % 9)) ch with
      | none => none
      | some b2 => b2.parseAux rest

/-- `Board::parse` (src/board.rs), on the list of characters of the input:
reject inputs whose length is not 81, accumulate each non-`'.'` character
into the board (rejecting characters outside `'1'..='9'`), and finally
reject boards that fail `Board::valid`. -/
def Board.parse (input : List Char) : Option Board :=
  if input.length ≠ 81 then none
  else
    match Board.parseAux Board.empty (List.zip (List.range 81) input) with
    | none => none
    | some board => if board.valid then some board else none

/-!  src/path.rs  -/

/-- One level of the permutation enumerator of src/path.rs: the source
unrolls this recursion nine times, choosing the next entry from `0..9`
filtered by the accumulated availability bitfield (`bitfield & (1 << x) == 0`;
at the first level the accumulator is empty so the test is vacuous, and the
source writes the second level's test as `a != b`).  `taken` is the
accumulated bitfield of already chosen entries. -/
def permsAux : Nat → Nat → List (List Nat)
  | 0, _ => [[]]
  | fuel + 1, taken =>
    ((List.range 9).filter fun x => taken &&& (1 <<< x) == 0).flatMap
      fun x => (permsAux fuel (taken ||| (1 <<< x))).map fun rest => x :: rest

/-- `permutations` (src/path.rs): all orderings of the numbers `0..9`,
each as a list `[a, b, c, d, e, f, g, h, i]` of nine distinct entries. -/
def permutations : List (List Nat) := permsAux 9 0

/-- `permutations` (src/path.rs), transcribed literally: the nine nested
`flat_map`s over `0..9`, each level filtering on the accumulated `bitfield`
of already chosen entries (the first level unfiltered, the second filtered
by `a != b`), with the innermost `map` emitting `[a, b, c, d, e, f, g, h, i]`.
`permutationsSrc_eq` below shows it equals the recursive `permutations`. -/
def permutationsSrc : List (List Nat) :=
  (List.range 9).flatMap fun a =>
    ((List.range 9).filter fun b => a != b).flatMap fun b =>
      let bitfield := 1 <<< a ||| 1 <<< b
      ((List.range 9).filter fun c => bitfield &&& (1 <<< c) == 0).flatMap fun c =>
        let bitfield := bitfield ||| 1 <<< c
        ((List.range 9).filter fun d => bitfield &&& (1 <<< d) == 0).flatMap fun d =>
          let bitfield := bitfield ||| 1 <<< d
          ((List.range 9).filter fun e => bitfield &&& (1 <<< e) == 0).flatMap fun e =>
            let bitfield := bitfield ||| 1 <<< e
            ((List.range 9).filter fun f => bitfield &&& (1 <<< f) == 0).flatMap fun f =>
              let bitfield := bitfield ||| 1 <<< f
              ((List.range 9).filter fun g => bitfield &&& (1 <<< g) == 0).flatMap fun g =>
                let bitfield := bitfield ||| 1 <<< g
                ((List.range 9).filter fun h => bitfield &&& (1 <<< h) == 0).flatMap fun h =>
                  let bitfield := bitfield ||| 1 <<< h
                  ((List.range 9).filter fun i => bitfield &&& (1 <<< i) == 0).map fun i =>
                    [a, b, c, d, e, f, g, h, i]

/-- `new_box` (src/path.rs): the bitfield of the nine cells of the 3x3 box
with box-row `row` and box-column `col`. -/
def new_box (row col : Nat) : Nat :=
  (((List.range 3).flatMap fun sub_row =>
    (List.range 3).map fun sub_col =>
      Bitfield.cell (3 * row + sub_row) (3 * col + sub_col))).foldl
    (· ||| ·) 0

/-- The `boxes` array of `generate_paths` (src/path.rs). -/
def boxes : List Nat :=
  [new_box 0 0, new_box 0 1, new_box 0 2,
   new_box 1 0, new_box 1 1, new_box 1 2,
   new_box 2 0, new_box 2 1, new_box 2 2]

/-- The `map` closure of `generate_paths` (src/path.rs): fold the singleton
bitfields `Bitfield::new(row, cols[row])` of a permutation into one
bitfield. -/
def pathOfPerm (cols : List Nat) : Nat :=
  (cols.enum.map fun rc => Bitfield.cell rc.1 rc.2).foldl (· ||| ·) 0

/-- The `filter` closure of `generate_paths` (src/path.rs): every box meets
the candidate path in exactly one cell. -/
def boxCheck (potential_path : Nat) : Bool :=
  boxes.all fun square => Bitfield.len (square &&& potential_path) == 1

/-- `generate_paths` (src/path.rs): the universe of valid single-digit
placement patterns. -/
def generate_paths : List Nat :=
  (permutations.map pathOfPerm).filter boxCheck

/-!  src/main.rs  -/

/-- `solve_helper` (src/main.rs): depth-first search assigning to each
candidate list in turn a path disjoint from the accumulated
`taken_spaces`, returning the first full assignment found. -/
def solve_helper : List (List Nat) → Nat → Option (List Nat)
  | [], _ => some []
  | first :: rest, taken_spaces =>
    (first.filter fun path => Bitfield.is_empty (path &&& taken_spaces)).findSome?
      fun path =>
        match solve_helper rest (path ||| taken_spaces) with
        | none => none
        | some output => some (path :: output)

/-- The `total_clues` fold of `solve` (src/main.rs). -/
def total_clues (board : Board) : Nat :=
  (Digit.iter.map fun digit => board.get digit).foldl (· ||| ·) 0

/-- The `possible_paths` construction of `solve` (src/main.rs): for each
digit, the paths of the database that contain the digit's clues and avoid
every other digit's clues. -/
def possible_paths (board : Board) (path_db : List Nat) : List (List Nat) :=
  Digit.iter.map fun digit =>
    let clues := board.get digit
    let opposing_clues := total_clues board &&& Bitfield.compl clues
    (path_db.filter fun path => Bitfield.contains path clues).filter
      fun path => Bitfield.is_empty (path &&& opposing_clues)

/-- Writing the assigned paths back into the board, as the final loop of
`solve` (src/main.rs) does. -/
def writeBack (board : Board) : List Nat → List Nat → Board
  | [], _ => board
  | _, [] => board
  | d :: ds, p :: ps => writeBack (board.set d p) ds ps

/-- `solve` (src/main.rs): build the nine filtered candidate lists, run
`solve_helper`, and on success write the assignment back into the board.
Returns the Rust function's `bool` along with the final state of the
mutably borrowed board. -/
def solve (board : Board) (path_db : List Nat) : Bool × Board :=
  match solve_helper (possible_paths board path_db) 0 with
  | some assigned_paths => (true, writeBack board Digit.iter assigned_paths)
  | none => (false, board)

/-!  Definitions used only by proofs.  -/

/-- The list of entries still available at one level of the permutation
enumerator: the filtered range that `permsAux` draws from. -/
def avail (taken : Nat) : List Nat :=
  (List.range 9).filter fun x => taken &&& (1 <<< x) == 0

/-- The canonical clue string of the spec's end-to-end test. -/
def canonicalClues : List Char :=
  "........8..3...4...9..2..6.....79.......612...6.5.2.7...8...5...1.....2.4.5.....3".toList

/-- The board parsed from the canonical clue string. -/
def canonicalBoard : Board := (Board.parse canonicalClues).getD Board.empty

/-- The permutations (one per digit index) of the canonical puzzle's unique
solution: entry `d` maps each row to the column where digit `d + 1` goes. -/
def canonicalPerms : List (List Nat) :=
  [[2, 4, 8, 0, 5, 6, 3, 1, 7],
   [1, 8, 4, 2, 6, 5, 0, 7, 3],
   [5, 2, 6, 7, 0, 4, 1, 3, 8],
   [4, 6, 2, 1, 3, 8, 7, 5, 0],
   [7, 5, 0, 8, 1, 3, 6, 4, 2],
   [0, 3, 7, 6, 4, 1, 8, 2, 5],
   [6, 0, 3, 4, 2, 7, 5, 8, 1],
   [8, 1, 5, 3, 7, 0, 2, 6, 4],
   [3, 7, 1, 5, 8, 2, 4, 0, 6]]

/-- The nine solution paths of the canonical puzzle. -/
def canonicalPaths : List Nat := canonicalPerms.map pathOfPerm

/-- The character that stands for the digit of board index `d` in the text
representation: `'1'` for index 0 through `'9'` for index 8. -/
def digitChar (d : Nat) : Char :=
  (['1', '2', '3', '4', '5', '6', '7', '8', '9']).getD d '.'

/-- The cells (row-major indices) of an 81-character input at which the
digit of board index `d` appears. -/
def clueCells (input : List Char) (d : Nat) : Finset Nat :=
  (Finset.range 81).filter fun idx => input.getD idx '.' = digitChar d

/-- Modelled from the spec's words (for comparison with `possible_paths`):
the union of all the *other* digits' clue-sets, the "opposing clues". -/
def opposing (board : Board) (d : Nat) : Nat :=
  ((Digit.iter.filter fun e => e != d).map board.get).foldl (· ||| ·) 0

/-- Modelled from the spec's words (for comparison with `possible_paths`):
the candidate list for digit `d` keeps exactly the paths of the universe,
in universe order, that contain the digit's clue-set and are disjoint from
the union of the other digits' clue-sets. -/
def specCandidates (board : Board) (path_db : List Nat) (d : Nat) : List Nat :=
  path_db.filter fun p =>
    Bitfield.contains p (board.get d) && Bitfield.is_empty (p &&& opposing board d)

/-- A valid assignment for `solve_helper`'s search problem: one path per
candidate list, each drawn from its list, the chosen paths pairwise
disjoint, and each disjoint from the already taken spaces. -/
def validChoice (possible_paths : List (List Nat)) (taken_spaces : Nat)
    (output : List Nat) : Prop :=
  List.Forall₂ (fun path first => path ∈ first) output possible_paths ∧
  output.Pairwise (fun a b => a &&& b = 0) ∧
  ∀ path ∈ output, path &&& taken_spaces = 0

/-- Sequential form of the box constraint on a permutation suffix: `fuel`
is the number of rows still to place, `used` the mask of column bands
already taken within the current row band (reset at each band boundary,
where `fuel ≡ 0 [MOD 3]`).  The head's column band must be unused. -/
def ok (fuel used : Nat) : List Nat → Bool
  | [] => true
  | c :: rest =>
    let used2 := if fuel % 3 == 0 then 0 else used
    (used2 &&& (1 <<< (c / 3)) == 0) &&
      ok (fuel - 1) (used2 ||| (1 <<< (c / 3))) rest

/-- Number of entries still available to the permutation enumerator whose
column band is `j`. -/
def bandFree (taken j : Nat) : Nat :=
  ((avail taken).filter fun x => x / 3 == j).length

/-- Arithmetic count of the permutation suffixes accepted by `ok`, by the
free-column profile `(n0, n1, n2)` of the three column bands. -/
def countOK : Nat → Nat → Nat → Nat → Nat → Nat
  | 0, _, _, _, _ => 1
  | fuel + 1, used, n0, n1, n2 =>
    let used2 := if (fuel + 1) % 3 == 0 then 0 else used
    (if used2 &&& 1 == 0 then n0 * countOK fuel (used2 ||| 1) (n0 - 1) n1 n2 else 0) +
    ((if used2 &&& 2 == 0 then n1 * countOK fuel (used2 ||| 2) n0 (n1 - 1) n2 else 0) +
     (if used2 &&& 4 == 0 then n2 * countOK fuel (used2 ||| 4) n0 n1 (n2 - 1) else 0))

/-- The set of grid-cell indices (`0..81`) whose bit is set in `n`. -/
def bits (n : Nat) : Finset Nat := (Finset.range 81).filter fun i => n.testBit i

/-!  ## Lemmas: the bit toolkit  -/

theorem cell_eq_pow (row col : Nat) : Bitfield.cell row col = 2 ^ (9 * row + col) := by
  simp [Bitfield.cell, Nat.one_shiftLeft]

theorem popcountAux_eq_card (f : Nat) : ∀ n : Nat,
    Bitfield.popcountAux f n = ((Finset.range f).filter fun i => n.testBit i).card := by
  induction f with
  | zero => intro n; simp [Bitfield.popcountAux]
  | succ f ih =>
    intro n
    have hcard : ((Finset.range (f + 1)).filter fun i => n.testBit i).card
        = ∑ i ∈ Finset.range (f + 1), if n.testBit i then 1 else 0 := by
      rw [Finset.card_filter]
    rw [Bitfield.popcountAux, ih (n / 2), hcard, Finset.sum_range_succ']
    have hbit : ∀ i : Nat, (if n.testBit (i + 1) then (1 : Nat) else 0)
        = if (n / 2).testBit i then 1 else 0 := by
      intro i; rw [Nat.testBit_succ]
    simp only [hbit]
    rw [Finset.card_filter]
    have hlow : (if n.testBit 0 then (1 : Nat) else 0) = n % 2 := by
      rcases Nat.mod_two_eq_zero_or_one n with h | h <;> simp [Nat.testBit_zero, h]
    omega

theorem len_eq_card_bits {n : Nat} (h : n < 2 ^ 81) : Bitfield.len n = (bits n).card := by
  rw [Bitfield.len, popcountAux_eq_card, bits]
  congr 1
  apply Finset.ext
  intro i
  simp only [Finset.mem_filter, Finset.mem_range]
  constructor
  · rintro ⟨hi, hb⟩
    refine ⟨?_, hb⟩
    by_contra hge
    have h81 : (81 : Nat) ≤ i := by omega
    have : n < 2 ^ i := lt_of_lt_of_le h (Nat.pow_le_pow_right (by norm_num) h81)
    rw [Nat.testBit_lt_two_pow this] at hb
    exact Bool.false_ne_true hb
  · rintro ⟨hi, hb⟩; exact ⟨by omega, hb⟩

theorem mem_bits {n i : Nat} (h : n < 2 ^ 81) : i ∈ bits n ↔ n.testBit i = true := by
  unfold bits
  simp only [Finset.mem_filter, Finset.mem_range]
  constructor
  · rintro ⟨_, hb⟩; exact hb
  · intro hb
    refine ⟨?_, hb⟩
    by_contra hge
    have : n < 2 ^ i := lt_of_lt_of_le h (Nat.pow_le_pow_right (by norm_num) (by omega))
    rw [Nat.testBit_lt_two_pow this] at hb
    exact Bool.false_ne_true hb

theorem bits_and {a b : Nat} : bits (a &&& b) = bits a ∩ bits b := by
  apply Finset.ext
  intro i
  simp only [bits, Finset.mem_filter, Finset.mem_inter, Finset.mem_range, Nat.testBit_and,
    Bool.and_eq_true]
  tauto

theorem bits_or {a b : Nat} : bits (a ||| b) = bits a ∪ bits b := by
  apply Finset.ext
  intro i
  simp [bits, Finset.mem_filter, Finset.mem_union, Nat.testBit_or]
  tauto

theorem bits_cell {row col : Nat} (hr : row < 9) (hc : col < 9) :
    bits (Bitfield.cell row col) = {9 * row + col} := by
  apply Finset.ext
  intro i
  simp only [bits, cell_eq_pow, Finset.mem_filter, Finset.mem_range, Finset.mem_singleton,
    Nat.testBit_two_pow, decide_eq_true_eq]
  constructor
  · rintro ⟨_, rfl⟩; rfl
  · rintro rfl; exact ⟨by omega, rfl⟩

theorem cell_lt {row col : Nat} (hr : row < 9) (hc : col < 9) :
    Bitfield.cell row col < 2 ^ 81 := by
  rw [cell_eq_pow]
  exact Nat.pow_lt_pow_right (by norm_num) (by omega)

theorem len_two_pow {k : Nat} (h : k < 128) : Bitfield.len (2 ^ k) = 1 := by
  rw [Bitfield.len, popcountAux_eq_card]
  have : ((Finset.range 128).filter fun i => (2 ^ k).testBit i) = {k} := by
    apply Finset.ext
    intro i
    simp only [Finset.mem_filter, Finset.mem_range, Finset.mem_singleton,
      Nat.testBit_two_pow, decide_eq_true_eq]
    constructor
    · rintro ⟨_, rfl⟩; rfl
    · rintro rfl; exact ⟨h, rfl⟩
  rw [this, Finset.card_singleton]

theorem cell_injective {r1 c1 r2 c2 : Nat} (hr1 : r1 < 9) (hc1 : c1 < 9)
    (hr2 : r2 < 9) (hc2 : c2 < 9)
    (h : Bitfield.cell r1 c1 = Bitfield.cell r2 c2) : r1 = r2 ∧ c1 = c2 := by
  rw [cell_eq_pow, cell_eq_pow] at h
  have := Nat.pow_right_injective (le_refl 2) h
  omega

/-!  ## Lemmas: the permutation enumerator  -/

theorem and_shift_eq_zero (taken x : Nat) :
    (taken &&& (1 <<< x) == 0) = !taken.testBit x := by
  rw [Nat.one_shiftLeft, Nat.and_two_pow]
  cases h : taken.testBit x
  · simp
  · simp only [Bool.toNat_true, one_mul, Bool.not_true, beq_eq_false_iff_ne, ne_eq]
    have := Nat.two_pow_pos x
    omega

theorem mem_avail {taken x : Nat} :
    x ∈ avail taken ↔ x < 9 ∧ taken.testBit x = false := by
  unfold avail
  rw [List.mem_filter, List.mem_range, and_shift_eq_zero]
  simp

theorem avail_nodup (taken : Nat) : (avail taken).Nodup :=
  (List.nodup_range 9).filter _

theorem testBit_or_shift (taken x v : Nat) :
    (taken ||| (1 <<< x)).testBit v = (taken.testBit v || decide (x = v)) := by
  rw [Nat.testBit_or, Nat.one_shiftLeft, Nat.testBit_two_pow]

theorem avail_update {taken x : Nat} (hx : x ∈ avail taken) :
    avail (taken ||| (1 <<< x)) = (avail taken).filter (fun y => y != x) := by
  unfold avail
  rw [List.filter_filter]
  apply List.filter_congr
  intro y _
  rw [and_shift_eq_zero, and_shift_eq_zero, testBit_or_shift]
  rcases mem_avail.mp hx with ⟨_, _⟩
  cases h : taken.testBit y <;> by_cases hxy : x = y <;> subst_vars <;> simp_all <;> omega

theorem avail_update_length {taken x : Nat} (hx : x ∈ avail taken) :
    (avail (taken ||| (1 <<< x))).length = (avail taken).length - 1 := by
  rw [avail_update hx, ← (avail_nodup taken).erase_eq_filter x,
    List.length_erase_of_mem hx]

theorem sum_map_const_factor {α : Type} (F G : Nat) :
    ∀ (l : List α) (g : α → Nat), (∀ x ∈ l, g x * F = G) →
    (l.map g).sum * F = l.length * G := by
  intro l
  induction l with
  | nil => intro g _; simp
  | cons a l ih =>
    intro g h
    have ha := h a (by simp)
    have hrest := ih g (fun x hx => h x (by simp [hx]))
    simp only [List.map_cons, List.sum_cons, List.length_cons]
    rw [Nat.add_mul, ha, hrest]
    ring

theorem permsAux_length : ∀ (fuel taken : Nat), fuel ≤ (avail taken).length →
    (permsAux fuel taken).length * Nat.factorial ((avail taken).length - fuel)
      = Nat.factorial (avail taken).length := by
  intro fuel
  induction fuel with
  | zero => intro taken _; simp [permsAux]
  | succ fuel ih =>
    intro taken hle
    have hstep : permsAux (fuel + 1) taken
        = (avail taken).flatMap
            (fun x => (permsAux fuel (taken ||| (1 <<< x))).map fun rest => x :: rest) := rfl
    rw [hstep]
    have hlen : ((avail taken).flatMap
        (fun x => (permsAux fuel (taken ||| (1 <<< x))).map fun rest => x :: rest)).length
        = ((avail taken).map fun x => (permsAux fuel (taken ||| (1 <<< x))).length).sum := by
      simp [List.flatMap, List.map_map, Function.comp_def]
    rw [hlen]
    have key : ∀ x ∈ avail taken,
        (permsAux fuel (taken ||| (1 <<< x))).length
          * Nat.factorial ((avail taken).length - 1 - fuel)
        = Nat.factorial ((avail taken).length - 1) := by
      intro x hx
      have h1 := avail_update_length hx
      have h2 := ih (taken ||| (1 <<< x)) (by omega)
      rw [h1] at h2
      exact h2
    have hsum := sum_map_const_factor (Nat.factorial ((avail taken).length - 1 - fuel))
      (Nat.factorial ((avail taken).length - 1)) (avail taken)
      (fun x => (permsAux fuel (taken ||| (1 <<< x))).length) key
    have hpos : 1 ≤ (avail taken).length := by omega
    have hfact : (avail taken).length * Nat.factorial ((avail taken).length - 1)
        = Nat.factorial (avail taken).length := by
      obtain ⟨m, hm⟩ : ∃ m, (avail taken).length = m + 1 := ⟨(avail taken).length - 1, by omega⟩
      rw [hm]
      simp [Nat.factorial_succ]
    have harith : (avail taken).length - (fuel + 1) = (avail taken).length - 1 - fuel := by
      omega
    rw [harith, hsum, hfact]

theorem avail_zero : avail 0 = List.range 9 := by
  unfold avail
  apply List.filter_eq_self.mpr
  intro a _
  simp [Nat.zero_and]

theorem mem_permsAux : ∀ (fuel taken : Nat) (p : List Nat),
    p ∈ permsAux fuel taken ↔
      p.length = fuel ∧ p.Nodup ∧ ∀ v ∈ p, v < 9 ∧ taken.testBit v = false := by
  intro fuel
  induction fuel with
  | zero =>
    intro taken p
    simp only [permsAux, List.mem_singleton]
    constructor
    · rintro rfl; simp
    · rintro ⟨hl, -, -⟩; exact List.eq_nil_of_length_eq_zero hl
  | succ fuel ih =>
    intro taken p
    have hstep : permsAux (fuel + 1) taken
        = (avail taken).flatMap
            (fun x => (permsAux fuel (taken ||| (1 <<< x))).map fun rest => x :: rest) := rfl
    rw [hstep]
    simp only [List.mem_flatMap, List.mem_map]
    constructor
    · rintro ⟨x, hx, q, hq, rfl⟩
      rcases mem_avail.mp hx with ⟨hx9, hxbit⟩
      rcases (ih _ q).mp hq with ⟨hlq, hnd, hvals⟩
      have hxnot : x ∉ q := by
        intro hmem
        have := (hvals x hmem).2
        rw [testBit_or_shift] at this
        simp at this
      refine ⟨by simp [hlq], List.nodup_cons.mpr ⟨hxnot, hnd⟩, ?_⟩
      intro v hv
      rcases List.mem_cons.mp hv with rfl | hv2
      · exact ⟨hx9, hxbit⟩
      · have := hvals v hv2
        rw [testBit_or_shift] at this
        rcases this with ⟨h9, hbit⟩
        exact ⟨h9, by
          cases h : taken.testBit v
          · rfl
          · rw [h] at hbit; simp at hbit⟩
    · rintro ⟨hl, hnd, hvals⟩
      match p with
      | [] => simp at hl
      | x :: q =>
        have hx9 := (hvals x (by simp)).1
        have hxbit := (hvals x (by simp)).2
        have hxq : x ∉ q := (List.nodup_cons.mp hnd).1
        refine ⟨x, mem_avail.mpr ⟨hx9, hxbit⟩, q, (ih _ q).mpr ⟨?_, ?_, ?_⟩, rfl⟩
        · simpa using hl
        · exact (List.nodup_cons.mp hnd).2
        · intro v hv
          have h1 := hvals v (by simp [hv])
          refine ⟨h1.1, ?_⟩
          rw [testBit_or_shift, h1.2]
          have : x ≠ v := fun he => hxq (he ▸ hv)
          simp [this]

theorem permsAux_nodup : ∀ (fuel taken : Nat), (permsAux fuel taken).Nodup := by
  intro fuel
  induction fuel with
  | zero => intro taken; simp [permsAux]
  | succ fuel ih =>
    intro taken
    have hstep : permsAux (fuel + 1) taken
        = (avail taken).flatMap
            (fun x => (permsAux fuel (taken ||| (1 <<< x))).map fun rest => x :: rest) := rfl
    rw [hstep]
    apply List.nodup_flatMap.mpr
    constructor
    · intro x _
      exact (ih _).map (fun a b h => by injection h)
    · apply (avail_nodup taken).pairwise_of_forall_ne
      intro a _ b _ hne
      intro p hpa hpb
      rcases List.mem_map.mp hpa with ⟨qa, -, rfl⟩
      rcases List.mem_map.mp hpb with ⟨qb, -, he⟩
      exact hne (by injection he with h1 h2; exact h1.symm)

/-!  ## Lemmas: paths built from permutations  -/

theorem foldl_or_testBit (l : List Nat) : ∀ (a i : Nat),
    (l.foldl (· ||| ·) a).testBit i = (a.testBit i || l.any fun x => x.testBit i) := by
  induction l with
  | nil => intro a i; simp
  | cons x t ih =>
    intro a i
    rw [List.foldl_cons, ih, Nat.testBit_or, List.any_cons, Bool.or_assoc]

theorem foldl_or_lt {n : Nat} (l : List Nat) : ∀ (a : Nat), a < 2 ^ n →
    (∀ x ∈ l, x < 2 ^ n) → l.foldl (· ||| ·) a < 2 ^ n := by
  induction l with
  | nil => intro a ha _; simpa using ha
  | cons x t ih =>
    intro a ha hall
    rw [List.foldl_cons]
    exact ih _ (Nat.or_lt_two_pow ha (hall x (by simp))) fun y hy => hall y (by simp [hy])

theorem pathOfPerm_lt {p : List Nat} (hlen : p.length ≤ 9) (h9 : ∀ v ∈ p, v < 9) :
    pathOfPerm p < 2 ^ 81 := by
  unfold pathOfPerm
  apply foldl_or_lt _ _ (by positivity)
  intro x hx
  rcases List.mem_map.mp hx with ⟨rc, hrc, rfl⟩
  obtain ⟨r, c⟩ := rc
  rcases List.mk_mem_enum_iff_getElem?.mp hrc with hget
  have hr : r < p.length := by
    rcases List.getElem?_eq_some.mp hget with ⟨h, _⟩
    exact h
  rcases List.getElem?_eq_some.mp hget with ⟨h, hc⟩
  exact cell_lt (by omega) (h9 c (hc ▸ List.getElem_mem h))

theorem testBit_pathOfPerm {p : List Nat} (i : Nat) :
    (pathOfPerm p).testBit i = true ↔
      ∃ r, r < p.length ∧ i = 9 * r + p.getD r 0 := by
  unfold pathOfPerm
  rw [foldl_or_testBit]
  simp only [Nat.zero_testBit, Bool.false_or, List.any_eq_true]
  constructor
  · rintro ⟨x, hx, hbit⟩
    rcases List.mem_map.mp hx with ⟨⟨r, c⟩, hrc, rfl⟩
    rcases List.getElem?_eq_some.mp (List.mk_mem_enum_iff_getElem?.mp hrc) with ⟨hr, hc⟩
    rw [cell_eq_pow, Nat.testBit_two_pow, decide_eq_true_eq] at hbit
    exact ⟨r, hr, by rw [List.getD_eq_getElem _ _ hr, hc, hbit]⟩
  · rintro ⟨r, hr, rfl⟩
    refine ⟨Bitfield.cell r (p.getD r 0), List.mem_map.mpr ⟨(r, p.getD r 0), ?_, rfl⟩, ?_⟩
    · apply List.mk_mem_enum_iff_getElem?.mpr
      rw [List.getD_eq_getElem _ _ hr]
      exact List.getElem?_eq_some.mpr ⟨hr, rfl⟩
    · rw [cell_eq_pow, Nat.testBit_two_pow]
      simp

theorem perm_getD_lt {p : List Nat} (h9 : ∀ v ∈ p, v < 9) {r : Nat} (hr : r < p.length) :
    p.getD r 0 < 9 := by
  apply h9
  rw [List.getD_eq_getElem _ _ hr]
  exact List.getElem_mem hr

theorem perm_exists_unique_row {p : List Nat} (hlen : p.length = 9) (hnd : p.Nodup)
    (h9 : ∀ v ∈ p, v < 9) {k : Nat} (hk : k < 9) :
    ∃ r, r < 9 ∧ p.getD r 0 = k ∧ ∀ r2, r2 < 9 → p.getD r2 0 = k → r2 = r := by
  have hsub : p.toFinset ⊆ Finset.range 9 := by
    intro v hv
    exact Finset.mem_range.mpr (h9 v (List.mem_toFinset.mp hv))
  have hcard : p.toFinset.card = 9 := by
    rw [List.card_toFinset, List.dedup_eq_self.mpr hnd, hlen]
  have heq : p.toFinset = Finset.range 9 :=
    Finset.eq_of_subset_of_card_le hsub (by simp [hcard])
  have hkmem : k ∈ p := List.mem_toFinset.mp (heq ▸ Finset.mem_range.mpr hk)
  rcases List.mem_iff_getElem.mp hkmem with ⟨r, hr, hrk⟩
  refine ⟨r, by omega, by rw [List.getD_eq_getElem _ _ hr]; exact hrk, ?_⟩
  intro r2 hr2 hr2k
  have hr2l : r2 < p.length := by omega
  rw [List.getD_eq_getElem _ _ hr2l] at hr2k
  have hinj := @List.Nodup.getElem_inj_iff _ p hnd r2 hr2l r hr
  exact hinj.mp (by rw [hr2k, hrk])

/-!  ## Lemmas: the backtracking search  -/

theorem lor_eq_zero {a b : Nat} : a ||| b = 0 ↔ a = 0 ∧ b = 0 := by
  constructor
  · intro h
    have hbit := fun i => congrArg (fun n => n.testBit i) h
    simp only [Nat.testBit_or, Nat.zero_testBit, Bool.or_eq_false_iff] at hbit
    constructor <;> apply Nat.eq_of_testBit_eq <;> intro i <;>
      simp [Nat.zero_testBit, (hbit i).1, (hbit i).2]
  · rintro ⟨rfl, rfl⟩; rfl

theorem and_lor_eq_zero {a b c : Nat} :
    a &&& (b ||| c) = 0 ↔ a &&& b = 0 ∧ a &&& c = 0 := by
  rw [Nat.and_or_distrib_left, lor_eq_zero]

theorem solve_helper_sound : ∀ (possible_paths : List (List Nat)) (taken_spaces : Nat)
    (output : List Nat), solve_helper possible_paths taken_spaces = some output →
    validChoice possible_paths taken_spaces output := by
  intro possible_paths
  induction possible_paths with
  | nil =>
    intro taken output h
    simp only [solve_helper, Option.some.injEq] at h
    subst h
    exact ⟨List.Forall₂.nil, List.Pairwise.nil, by simp⟩
  | cons first rest ih =>
    intro taken output h
    simp only [solve_helper] at h
    rcases List.exists_of_findSome?_eq_some h with ⟨path, hpathmem, hf⟩
    rcases List.mem_filter.mp hpathmem with ⟨hpfirst, hpemp⟩
    have hptaken : path &&& taken = 0 := by
      simpa [Bitfield.is_empty] using hpemp
    cases hrec : solve_helper rest (path ||| taken) with
    | none => rw [hrec] at hf; simp at hf
    | some tail =>
      rw [hrec] at hf
      simp only [Option.some.injEq] at hf
      subst hf
      rcases ih (path ||| taken) tail hrec with ⟨hforall, hpair, htaken⟩
      refine ⟨List.Forall₂.cons hpfirst hforall, ?_, ?_⟩
      · apply List.Pairwise.cons ?_ hpair
        intro b hb
        have := htaken b hb
        rw [Nat.and_comm]
        exact (and_lor_eq_zero.mp this).1
      · intro q hq
        rcases List.mem_cons.mp hq with rfl | hq2
        · exact hptaken
        · exact (and_lor_eq_zero.mp (htaken q hq2)).2

theorem solve_helper_complete : ∀ (possible_paths : List (List Nat)) (taken_spaces : Nat),
    solve_helper possible_paths taken_spaces = none →
    ∀ output, ¬ validChoice possible_paths taken_spaces output := by
  intro possible_paths
  induction possible_paths with
  | nil => intro taken h; simp [solve_helper] at h
  | cons first rest ih =>
    intro taken h output hvalid
    rcases hvalid with ⟨hforall, hpair, htaken⟩
    cases hforall with
    | cons hpfirst htail =>
      rename_i path tailOut
      simp only [solve_helper, List.findSome?_eq_none_iff] at h
      have hptaken : path &&& taken = 0 := htaken path (by simp)
      have hpfilter : path ∈ first.filter fun q => Bitfield.is_empty (q &&& taken) := by
        apply List.mem_filter.mpr
        exact ⟨hpfirst, by simp [Bitfield.is_empty, hptaken]⟩
      have hf := h path hpfilter
      cases hrec : solve_helper rest (path ||| taken) with
      | some tail2 => rw [hrec] at hf; simp at hf
      | none =>
        apply ih (path ||| taken) hrec tailOut
        refine ⟨htail, (List.pairwise_cons.mp hpair).2, ?_⟩
        intro q hq
        apply and_lor_eq_zero.mpr
        constructor
        · rw [Nat.and_comm]
          exact (List.pairwise_cons.mp hpair).1 q hq
        · exact htaken q (by simp [hq])

/-!  ## Lemmas: the candidate filter  -/

theorem compl_testBit (c i : Nat) :
    (Bitfield.compl c).testBit i = (decide (i < 81) && !c.testBit i) := by
  unfold Bitfield.compl MASK
  rw [Nat.testBit_and, Nat.testBit_xor, Nat.testBit_two_pow_sub_one,
    Nat.testBit_two_pow_sub_one]
  rcases Nat.lt_or_ge i 81 with h | h
  · have h128 : i < 128 := by omega
    simp [h, h128]
  · have : ¬ i < 81 := by omega
    simp [this]

theorem and_eq_zero_testBit {a b : Nat} (h : a &&& b = 0) {i : Nat}
    (ha : a.testBit i = true) : b.testBit i = false := by
  have hb := congrArg (fun n => n.testBit i) h
  simp only [Nat.testBit_and, Nat.zero_testBit, Bool.and_eq_false_iff] at hb
  rcases hb with hb | hb
  · rw [ha] at hb; exact absurd hb (by simp)
  · exact hb

theorem mem_digit_iter {e : Nat} : e ∈ Digit.iter ↔ e < 9 := by
  rw [show Digit.iter = List.range 9 by decide, List.mem_range]

theorem testBit_total {board : Board} {i : Nat} :
    (total_clues board).testBit i = true ↔
      ∃ e, e < 9 ∧ (board.get e).testBit i = true := by
  unfold total_clues
  rw [foldl_or_testBit]
  simp only [Nat.zero_testBit, Bool.false_or, List.any_eq_true]
  constructor
  · rintro ⟨x, hx, hbit⟩
    rcases List.mem_map.mp hx with ⟨e, he, rfl⟩
    exact ⟨e, mem_digit_iter.mp he, hbit⟩
  · rintro ⟨e, he9, hbit⟩
    exact ⟨board.get e, List.mem_map.mpr ⟨e, mem_digit_iter.mpr he9, rfl⟩, hbit⟩

theorem testBit_opposing {board : Board} {d i : Nat} :
    (opposing board d).testBit i = true ↔
      ∃ e, e < 9 ∧ e ≠ d ∧ (board.get e).testBit i = true := by
  unfold opposing
  rw [foldl_or_testBit]
  simp only [Nat.zero_testBit, Bool.false_or, List.any_eq_true]
  constructor
  · rintro ⟨x, hx, hbit⟩
    rcases List.mem_map.mp hx with ⟨e, he, rfl⟩
    rcases List.mem_filter.mp he with ⟨hei, hed⟩
    exact ⟨e, mem_digit_iter.mp hei, by simpa using hed, hbit⟩
  · rintro ⟨e, he9, hed, hbit⟩
    refine ⟨board.get e, List.mem_map.mpr ⟨e, List.mem_filter.mpr
      ⟨mem_digit_iter.mpr he9, by simpa using hed⟩, rfl⟩, hbit⟩

theorem opposing_eq {board : Board} {d : Nat} (hd : d < 9)
    (hmask : ∀ e, e < 9 → board.get e < 2 ^ 81)
    (hdisj : ∀ e1, e1 < 9 → ∀ e2, e2 < 9 → e1 ≠ e2 →
      board.get e1 &&& board.get e2 = 0) :
    total_clues board &&& Bitfield.compl (board.get d) = opposing board d := by
  apply Nat.eq_of_testBit_eq
  intro i
  rw [Nat.testBit_and, compl_testBit]
  apply Bool.eq_iff_iff.mpr
  simp only [Bool.and_eq_true, decide_eq_true_eq, Bool.not_eq_true', testBit_total,
    testBit_opposing]
  constructor
  · rintro ⟨⟨e, he9, hbit⟩, _, hdbit⟩
    refine ⟨e, he9, ?_, hbit⟩
    rintro rfl
    rw [hdbit] at hbit
    exact absurd hbit (by simp)
  · rintro ⟨e, he9, hed, hbit⟩
    refine ⟨⟨e, he9, hbit⟩, ?_, ?_⟩
    · by_contra hge
      have hlt : board.get e < 2 ^ i :=
        lt_of_lt_of_le (hmask e he9) (Nat.pow_le_pow_right (by norm_num) (by omega))
      rw [Nat.testBit_lt_two_pow hlt] at hbit
      exact absurd hbit (by simp)
    · exact and_eq_zero_testBit (hdisj e he9 d hd hed) hbit

/-!  ## Lemmas: board parsing and validity  -/

theorem digit_parse_eq_some {ch : Char} {d : Nat} :
    Digit.parse ch = some d ↔ d < 9 ∧ ch = digitChar d := by
  constructor
  · intro h
    unfold Digit.parse at h
    split at h <;> simp_all <;> subst h <;> decide
  · rintro ⟨hd, rfl⟩
    interval_cases d <;> rfl

theorem digit_parse_lt {ch : Char} {d : Nat} (h : Digit.parse ch = some d) : d < 9 :=
  (digit_parse_eq_some.mp h).1

theorem get_set (b : Board) (i j x : Nat) (hi : i < b.length) :
    (b.set i x).get j = if i = j then x else b.get j := by
  unfold Board.get Board.set
  rw [List.getD_eq_getElem?_getD, List.getD_eq_getElem?_getD, List.getElem?_set]
  by_cases h : i = j
  · subst h; simp [hi]
  · simp [h]

theorem mem_zip_range {input : List Char} (hlen : input.length = 81) {idx : Nat} {ch : Char} :
    (idx, ch) ∈ List.zip (List.range 81) input ↔
      idx < 81 ∧ input.getD idx '.' = ch := by
  constructor
  · intro h
    rcases List.mem_iff_getElem?.mp h with ⟨n, hn⟩
    rcases List.getElem?_zip_eq_some.mp hn with ⟨hr, hi⟩
    have hidx : idx = n := by
      rcases List.getElem?_eq_some.mp hr with ⟨hlt, he⟩
      rw [List.getElem_range] at he
      omega
    subst hidx
    rcases List.getElem?_eq_some.mp hr with ⟨hlt, -⟩
    refine ⟨by simpa using hlt, ?_⟩
    rw [List.getD_eq_getElem?_getD, hi]
    rfl
  · rintro ⟨hidx, hch⟩
    apply List.mem_iff_getElem?.mpr
    refine ⟨idx, List.getElem?_zip_eq_some.mpr ⟨?_, ?_⟩⟩
    · rw [List.getElem?_range hidx]
    · rw [List.getD_eq_getElem?_getD] at hch
      have hlt : idx < input.length := by omega
      rw [List.getElem?_eq_getElem hlt] at hch ⊢
      simp only [Option.getD_some] at hch
      rw [hch]

theorem parseAux_none_iff : ∀ (pairs : List (Nat × Char)) (b : Board),
    Board.parseAux b pairs = none ↔
      ∃ pc ∈ pairs, pc.2 ≠ '.' ∧ Digit.parse pc.2 = none := by
  intro pairs
  induction pairs with
  | nil => intro b; simp [Board.parseAux]
  | cons pc rest ih =>
    intro b
    obtain ⟨idx, ch⟩ := pc
    by_cases hdot : ch = '.'
    · subst hdot
      have hskip : Board.parseAux b ((idx, '.') :: rest) = Board.parseAux b rest := by
        rw [Board.parseAux, if_pos rfl]
      rw [hskip, ih]
      constructor
      · rintro ⟨qc, hqc, hq⟩; exact ⟨qc, by simp [hqc], hq⟩
      · rintro ⟨qc, hqc, hq1, hq2⟩
        rcases List.mem_cons.mp hqc with rfl | hmem
        · simp at hq1
        · exact ⟨qc, hmem, hq1, hq2⟩
    · cases hp : Digit.parse ch with
      | none =>
        have hnone : Board.parseAux b ((idx, ch) :: rest) = none := by
          rw [Board.parseAux, if_neg hdot]
          unfold Board.place
          rw [hp]
        rw [hnone]
        simp only [true_iff]
        exact ⟨(idx, ch), by simp, hdot, hp⟩
      | some d =>
        have hsome : Board.parseAux b ((idx, ch) :: rest) =
            Board.parseAux (b.set d (b.get d ||| Bitfield.cell (idx / 9) (idx % 9))) rest := by
          rw [Board.parseAux, if_neg hdot]
          unfold Board.place
          rw [hp]
        rw [hsome, ih]
        constructor
        · rintro ⟨qc, hqc, hq⟩; exact ⟨qc, by simp [hqc], hq⟩
        · rintro ⟨qc, hqc, hq1, hq2⟩
          rcases List.mem_cons.mp hqc with rfl | hmem
          · rw [hp] at hq2; simp at hq2
          · exact ⟨qc, hmem, hq1, hq2⟩

theorem parseAux_get : ∀ (pairs : List (Nat × Char)) (b b2 : Board),
    b.length = 9 → Board.parseAux b pairs = some b2 →
    b2.length = 9 ∧ ∀ d, d < 9 → ∀ i,
      (b2.get d).testBit i =
        ((b.get d).testBit i || pairs.any fun pc =>
          (Digit.parse pc.2 == some d) && (9 * (pc.1 / 9) + pc.1 % 9 == i)) := by
  intro pairs
  induction pairs with
  | nil =>
    intro b b2 hlen h
    simp only [Board.parseAux, Option.some.injEq] at h
    subst h
    exact ⟨hlen, fun d _ i => by simp⟩
  | cons pc rest ih =>
    intro b b2 hlen h
    obtain ⟨idx, ch⟩ := pc
    by_cases hdot : ch = '.'
    · subst hdot
      have hskip : Board.parseAux b ((idx, '.') :: rest) = Board.parseAux b rest := by
        rw [Board.parseAux, if_pos rfl]
      rw [hskip] at h
      rcases ih b b2 hlen h with ⟨hlen2, hbit⟩
      refine ⟨hlen2, fun d hd i => ?_⟩
      rw [hbit d hd i, List.any_cons]
      have : (Digit.parse '.' == some d) = false := by rfl
      rw [this]
      simp
    · cases hp : Digit.parse ch with
      | none =>
        have hnone : Board.parseAux b ((idx, ch) :: rest) = none := by
          rw [Board.parseAux, if_neg hdot]
          unfold Board.place
          rw [hp]
        rw [hnone] at h
        simp at h
      | some dd =>
        have hdd : dd < 9 := digit_parse_lt hp
        have hsome : Board.parseAux b ((idx, ch) :: rest) =
            Board.parseAux (b.set dd (b.get dd ||| Bitfield.cell (idx / 9) (idx % 9))) rest := by
          rw [Board.parseAux, if_neg hdot]
          unfold Board.place
          rw [hp]
        rw [hsome] at h
        have hlen3 : (b.set dd (b.get dd ||| Bitfield.cell (idx / 9) (idx % 9))).length = 9 := by
          simpa [Board.set] using hlen
        rcases ih _ b2 hlen3 h with ⟨hlen2, hbit⟩
        refine ⟨hlen2, fun d hd i => ?_⟩
        rw [hbit d hd i, List.any_cons]
        rw [get_set b dd d (b.get dd ||| Bitfield.cell (idx / 9) (idx % 9)) (by omega)]
        by_cases hded : dd = d
        · subst hded
          rw [if_pos rfl, Nat.testBit_or, cell_eq_pow, Nat.testBit_two_pow]
          have hbeq : (Digit.parse ch == some dd) = true := by rw [hp]; simp
          rw [hbeq]
          apply Bool.eq_iff_iff.mpr
          simp only [Bool.or_eq_true, decide_eq_true_eq, beq_iff_eq, Bool.true_and]
          tauto
        · rw [if_neg hded]
          have hbeq : (Digit.parse ch == some d) = false := by
            rw [hp]
            simp [hded]
          rw [hbeq]
          simp

theorem validAux_iff : ∀ (ds : List Nat) (b : Board) (total : Nat),
    Board.validAux b total ds = true ↔
      ((∀ d ∈ ds, Bitfield.len (b.get d) ≤ 9 ∧ b.get d &&& total = 0) ∧
       ds.Pairwise fun d1 d2 => b.get d1 &&& b.get d2 = 0) := by
  intro ds
  induction ds with
  | nil => intro b total; simp [Board.validAux]
  | cons d rest ih =>
    intro b total
    rw [Board.validAux]
    by_cases h1 : Bitfield.len (b.get d) > 9
    · rw [if_pos h1]
      constructor
      · intro hf; exact absurd hf (by simp)
      · rintro ⟨hall, -⟩
        exact absurd ((hall d (by simp)).1) (by omega)
    · rw [if_neg h1]
      by_cases h2 : Bitfield.is_empty (b.get d &&& total)
      · have h2z : b.get d &&& total = 0 := by simpa [Bitfield.is_empty] using h2
        rw [if_neg (by simp [h2])]
        rw [ih]
        constructor
        · rintro ⟨hall, hpair⟩
          refine ⟨?_, ?_⟩
          · intro e he
            rcases List.mem_cons.mp he with rfl | he2
            · exact ⟨by omega, h2z⟩
            · exact ⟨(hall e he2).1, (and_lor_eq_zero.mp (hall e he2).2).1⟩
          · apply List.pairwise_cons.mpr
            refine ⟨?_, hpair⟩
            intro e he2
            rw [Nat.and_comm]
            exact (and_lor_eq_zero.mp (hall e he2).2).2
        · rintro ⟨hall, hpair⟩
          refine ⟨?_, (List.pairwise_cons.mp hpair).2⟩
          intro e he2
          refine ⟨(hall e (by simp [he2])).1, and_lor_eq_zero.mpr ⟨(hall e (by simp [he2])).2, ?_⟩⟩
          rw [Nat.and_comm]
          exact (List.pairwise_cons.mp hpair).1 e he2
      · rw [if_pos (by simp [h2])]
        constructor
        · intro hf; exact absurd hf (by simp)
        · rintro ⟨hall, -⟩
          exact absurd ((hall d (by simp)).2)
            (fun hz => h2 (by simp [Bitfield.is_empty, hz]))

theorem valid_iff (b : Board) :
    Board.valid b = true ↔
      (∀ d, d < 9 → Bitfield.len (b.get d) ≤ 9) ∧
      (∀ d1, d1 < 9 → ∀ d2, d2 < 9 → d1 ≠ d2 → b.get d1 &&& b.get d2 = 0) := by
  unfold Board.valid
  rw [validAux_iff]
  constructor
  · rintro ⟨hall, hpair⟩
    refine ⟨fun d hd => (hall d (mem_digit_iter.mpr hd)).1, ?_⟩
    intro d1 h1 d2 h2 hne
    exact hpair.forall (fun x y hxy => by rw [Nat.and_comm] at hxy; exact hxy)
      (mem_digit_iter.mpr h1) (mem_digit_iter.mpr h2) hne
  · rintro ⟨hlen, hdisj⟩
    refine ⟨fun d hd => ⟨hlen d (mem_digit_iter.mp hd), Nat.and_zero _⟩, ?_⟩
    apply List.Nodup.pairwise_of_forall_ne (by decide)
    intro a ha b2 hb hne
    exact hdisj a (mem_digit_iter.mp ha) b2 (mem_digit_iter.mp hb) hne

theorem empty_get (d : Nat) : Board.empty.get d = 0 := by
  unfold Board.empty Board.get
  rw [List.getD_eq_getElem?_getD]
  rcases Nat.lt_or_ge d 9 with h | h
  · interval_cases d <;> rfl
  · rw [List.getElem?_eq_none (by simpa using h)]
    rfl

theorem parse_bits {input : List Char} (hlen : input.length = 81) {b2 : Board}
    (h : Board.parseAux Board.empty (List.zip (List.range 81) input) = some b2) :
    b2.length = 9 ∧ ∀ d, d < 9 →
      b2.get d < 2 ^ 81 ∧ bits (b2.get d) = clueCells input d := by
  rcases parseAux_get _ Board.empty b2 (by rfl) h with ⟨hlen2, hbit⟩
  refine ⟨hlen2, fun d hd => ?_⟩
  have hbit2 : ∀ i, (b2.get d).testBit i = true ↔
      i < 81 ∧ input.getD i '.' = digitChar d := by
    intro i
    rw [hbit d hd i, empty_get, Nat.zero_testBit, Bool.false_or, List.any_eq_true]
    constructor
    · rintro ⟨⟨idx, ch⟩, hmem, hcond⟩
      rcases mem_zip_range hlen |>.mp hmem with ⟨hidx, hch⟩
      simp only [Bool.and_eq_true, beq_iff_eq] at hcond
      rcases hcond with ⟨hparse, hi⟩
      have : 9 * (idx / 9) + idx % 9 = idx := by omega
      rw [this] at hi
      subst hi
      refine ⟨hidx, ?_⟩
      rw [hch]
      exact (digit_parse_eq_some.mp hparse).2
    · rintro ⟨hi, hch⟩
      refine ⟨(i, digitChar d), mem_zip_range hlen |>.mpr ⟨hi, hch⟩, ?_⟩
      simp only [Bool.and_eq_true, beq_iff_eq]
      refine ⟨digit_parse_eq_some.mpr ⟨hd, rfl⟩, by omega⟩
  have hlt : b2.get d < 2 ^ 81 := by
    apply Nat.lt_pow_two_of_testBit
    intro i hi81
    rcases hb : (b2.get d).testBit i with _ | _
    · rfl
    · rcases (hbit2 i).mp hb with ⟨hi, -⟩
      omega
  refine ⟨hlt, ?_⟩
  apply Finset.ext
  intro i
  rw [mem_bits hlt, hbit2]
  simp only [clueCells, Finset.mem_filter, Finset.mem_range]

theorem and_eq_zero_iff_disjoint {a b : Nat} (ha : a < 2 ^ 81) (hb : b < 2 ^ 81) :
    a &&& b = 0 ↔ Disjoint (bits a) (bits b) := by
  rw [Finset.disjoint_iff_inter_eq_empty, ← bits_and]
  constructor
  · intro h
    rw [h]
    apply Finset.ext
    intro i
    simp [bits, Nat.zero_testBit]
  · intro h
    apply Nat.eq_of_testBit_eq
    intro i
    rw [Nat.zero_testBit]
    rcases hz : (a &&& b).testBit i with _ | _
    · rfl
    · have hab : a &&& b < 2 ^ 81 := lt_of_le_of_lt Nat.and_le_left ha
      have hmem : i ∈ bits (a &&& b) := (mem_bits hab).mpr hz
      rw [h] at hmem
      simp at hmem

/-!  ## Lemmas: solve and the solved board  -/

theorem generate_paths_len : ∀ path ∈ generate_paths,
    path < 2 ^ 81 ∧ Bitfield.len path = 9 := by
  intro path hpath
  rcases List.mem_filter.mp hpath with ⟨hmem, -⟩
  rcases List.mem_map.mp hmem with ⟨p, hpmem, rfl⟩
  rcases (mem_permsAux 9 0 p).mp hpmem with ⟨hlen, hnd, hvals⟩
  have h9 : ∀ v ∈ p, v < 9 := fun v hv => (hvals v hv).1
  have hlt : pathOfPerm p < 2 ^ 81 := pathOfPerm_lt (by omega) h9
  refine ⟨hlt, ?_⟩
  rw [len_eq_card_bits hlt]
  have hset : bits (pathOfPerm p)
      = (Finset.range 9).image fun r => 9 * r + p.getD r 0 := by
    apply Finset.ext
    intro i
    rw [mem_bits hlt, testBit_pathOfPerm, hlen]
    simp only [Finset.mem_image, Finset.mem_range]
    constructor
    · rintro ⟨r, hr, rfl⟩; exact ⟨r, hr, rfl⟩
    · rintro ⟨r, hr, rfl⟩; exact ⟨r, hr, rfl⟩
  rw [hset, Finset.card_image_of_injOn, Finset.card_range]
  intro r1 hr1 r2 hr2 he
  simp only [Finset.coe_range, Set.mem_Iio] at hr1 hr2
  have he2 : 9 * r1 + p.getD r1 0 = 9 * r2 + p.getD r2 0 := he
  have hc1 : p.getD r1 0 < 9 := perm_getD_lt h9 (by omega)
  have hc2 : p.getD r2 0 < 9 := perm_getD_lt h9 (by omega)
  omega

theorem pairwise_disjoint_getD {l : List Nat}
    (hp : l.Pairwise fun a b => a &&& b = 0) {i j : Nat}
    (hi : i < l.length) (hj : j < l.length) (hij : i ≠ j) :
    l.getD i 0 &&& l.getD j 0 = 0 := by
  rw [List.getD_eq_getElem _ _ hi, List.getD_eq_getElem _ _ hj]
  rcases Nat.lt_or_ge i j with h | h
  · exact (List.pairwise_iff_getElem.mp hp) i j hi hj h
  · rw [Nat.and_comm]
    exact (List.pairwise_iff_getElem.mp hp) j i hj hi (by omega)

theorem forall₂_mem_getD {l1 : List Nat} {l2 : List (List Nat)}
    (h : List.Forall₂ (fun a b => a ∈ b) l1 l2) {i : Nat} (hi : i < l1.length) :
    l1.getD i 0 ∈ l2.getD i [] := by
  rcases List.forall₂_iff_get.mp h with ⟨hlen, hget⟩
  rw [List.getD_eq_getElem _ _ hi, List.getD_eq_getElem _ _ (by omega)]
  simpa [List.get_eq_getElem] using hget i hi (by omega)

theorem forall₂_mem_of_getD {l1 : List Nat} {l2 : List (List Nat)}
    (hlen : l1.length = l2.length)
    (h : ∀ i, i < l1.length → l1.getD i 0 ∈ l2.getD i []) :
    List.Forall₂ (fun a b => a ∈ b) l1 l2 := by
  apply List.forall₂_iff_get.mpr
  refine ⟨hlen, ?_⟩
  intro i h1 h2
  have hm := h i h1
  rw [List.getD_eq_getElem _ _ h1, List.getD_eq_getElem _ _ h2] at hm
  simpa [List.get_eq_getElem] using hm

theorem writeBack_get_notin : ∀ (ds ps : List Nat) (b : Board) (e : Nat),
    e ∉ ds → (writeBack b ds ps).get e = b.get e := by
  intro ds
  induction ds with
  | nil => intro ps b e _; cases ps <;> rfl
  | cons d ds ih =>
    intro ps b e he
    cases ps with
    | nil => rfl
    | cons p ps =>
      rw [writeBack]
      rw [ih ps _ e (fun hm => he (by simp [hm]))]
      rcases Nat.lt_or_ge d b.length with hlt | hge
      · rw [get_set b d e p hlt, if_neg (fun hde => he (by simp [hde]))]
      · unfold Board.set
        rw [List.set_eq_of_length_le hge]

theorem writeBack_get_at : ∀ (ds ps : List Nat) (b : Board) (i : Nat),
    ds.Nodup → i < ds.length → i < ps.length → (∀ x ∈ ds, x < b.length) →
    (writeBack b ds ps).get (ds.getD i 0) = ps.getD i 0 := by
  intro ds
  induction ds with
  | nil => intro ps b i _ hi; simp at hi
  | cons d ds ih =>
    intro ps b i hnd hi hpi hlt
    cases ps with
    | nil => simp at hpi
    | cons p ps =>
      rw [writeBack]
      cases i with
      | zero =>
        have hdnot : d ∉ ds := (List.nodup_cons.mp hnd).1
        rw [show (d :: ds).getD 0 0 = d from rfl]
        rw [writeBack_get_notin ds ps _ d hdnot]
        rw [get_set b d d p (hlt d (by simp)), if_pos rfl]
        rfl
      | succ i =>
        have hstep : (d :: ds).getD (i + 1) 0 = ds.getD i 0 := rfl
        have hstep2 : (p :: ps).getD (i + 1) 0 = ps.getD i 0 := rfl
        rw [hstep, hstep2]
        apply ih ps _ i (List.nodup_cons.mp hnd).2 (by simpa using hi) (by simpa using hpi)
        intro x hx
        unfold Board.set
        rw [List.length_set]
        exact hlt x (by simp [hx])

theorem digit_iter_getD {d : Nat} (hd : d < 9) : Digit.iter.getD d 0 = d := by
  interval_cases d <;> rfl

theorem writeBack_get {b : Board} (hb : b.length = 9) {ps : List Nat}
    (hps : ps.length = 9) {d : Nat} (hd : d < 9) :
    (writeBack b Digit.iter ps).get d = ps.getD d 0 := by
  have h := writeBack_get_at Digit.iter ps b d (by decide) (by simpa [Digit.iter] using hd)
    (by omega) (fun x hx => by rw [hb]; exact mem_digit_iter.mp hx)
  rw [digit_iter_getD hd] at h
  exact h

theorem solve_fst_of_some (board : Board) (db : List Nat) (out : List Nat)
    (hout : solve_helper (possible_paths board db) 0 = some out) :
    (solve board db).1 = true := by
  unfold solve
  rw [hout]

theorem possible_paths_get (board : Board) (db : List Nat) {d : Nat} (hd : d < 9) :
    (possible_paths board db).getD d [] =
      ((db.filter fun path => Bitfield.contains path (board.get d)).filter
        fun path =>
          Bitfield.is_empty
            (path &&& (total_clues board &&& Bitfield.compl (board.get d)))) := by
  interval_cases d <;> rfl

/-!  ## Lemmas: counting the path universe  -/

theorem testBit_new_box {R C : Nat} (i : Nat) :
    (new_box R C).testBit i = true ↔
      ∃ sr, sr < 3 ∧ ∃ sc, sc < 3 ∧ i = 9 * (3 * R + sr) + (3 * C + sc) := by
  unfold new_box
  rw [foldl_or_testBit]
  simp only [Nat.zero_testBit, Bool.false_or, List.any_eq_true]
  constructor
  · rintro ⟨x, hx, hbit⟩
    rcases List.mem_flatMap.mp hx with ⟨sr, hsr, hx2⟩
    rcases List.mem_map.mp hx2 with ⟨sc, hsc, rfl⟩
    rw [cell_eq_pow, Nat.testBit_two_pow, decide_eq_true_eq] at hbit
    exact ⟨sr, List.mem_range.mp hsr, sc, List.mem_range.mp hsc, hbit.symm⟩
  · rintro ⟨sr, hsr, sc, hsc, rfl⟩
    refine ⟨Bitfield.cell (3 * R + sr) (3 * C + sc),
      List.mem_flatMap.mpr ⟨sr, List.mem_range.mpr hsr,
        List.mem_map.mpr ⟨sc, List.mem_range.mpr hsc, rfl⟩⟩, ?_⟩
    rw [cell_eq_pow, Nat.testBit_two_pow]
    simp

theorem new_box_lt {R C : Nat} (hR : R < 3) (hC : C < 3) : new_box R C < 2 ^ 81 := by
  apply Nat.lt_pow_two_of_testBit
  intro i hi
  rcases hb : (new_box R C).testBit i with _ | _
  · rfl
  · rcases (testBit_new_box i).mp hb with ⟨sr, hsr, sc, hsc, rfl⟩
    omega

theorem card_filter_range3 (q : Nat → Prop) [DecidablePred q] :
    ((Finset.range 3).filter q).card =
      (if q 0 then 1 else 0) + ((if q 1 then 1 else 0) + (if q 2 then 1 else 0)) := by
  rw [Finset.card_filter, Finset.sum_range_succ, Finset.sum_range_succ,
    Finset.sum_range_one]
  split_ifs <;> omega

theorem len_box_inter {R C : Nat} (hR : R < 3) (hC : C < 3) {p : List Nat}
    (hlen : p.length = 9) (h9 : ∀ v ∈ p, v < 9) :
    Bitfield.len (new_box R C &&& pathOfPerm p) =
      (if (p.getD (3 * R) 0) / 3 = C then 1 else 0) +
      ((if (p.getD (3 * R + 1) 0) / 3 = C then 1 else 0) +
       (if (p.getD (3 * R + 2) 0) / 3 = C then 1 else 0)) := by
  have hboxlt : new_box R C < 2 ^ 81 := new_box_lt hR hC
  have hlt : new_box R C &&& pathOfPerm p < 2 ^ 81 :=
    lt_of_le_of_lt Nat.and_le_left hboxlt
  rw [len_eq_card_bits hlt, bits_and]
  have hI : bits (new_box R C) ∩ bits (pathOfPerm p) =
      ((Finset.range 3).filter fun t => (p.getD (3 * R + t) 0) / 3 = C).image
        fun t => 9 * (3 * R + t) + p.getD (3 * R + t) 0 := by
    apply Finset.ext
    intro i
    simp only [Finset.mem_inter, Finset.mem_image, Finset.mem_filter, Finset.mem_range]
    rw [mem_bits hboxlt, mem_bits (pathOfPerm_lt (by omega) h9), testBit_new_box,
      testBit_pathOfPerm, hlen]
    constructor
    · rintro ⟨⟨sr, hsr, sc, hsc, rfl⟩, ⟨r, hr, heq⟩⟩
      have hpr : p.getD r 0 < 9 := perm_getD_lt h9 (by omega)
      have hreq : r = 3 * R + sr ∧ p.getD r 0 = 3 * C + sc := by omega
      obtain ⟨hre, hpe⟩ := hreq
      subst hre
      refine ⟨sr, ⟨hsr, by omega⟩, by omega⟩
    · rintro ⟨t, ⟨ht, hband⟩, rfl⟩
      have hpr : p.getD (3 * R + t) 0 < 9 := perm_getD_lt h9 (by omega)
      refine ⟨⟨t, ht, p.getD (3 * R + t) 0 - 3 * C, by omega, by omega⟩,
        ⟨3 * R + t, by omega, rfl⟩⟩
  rw [hI, Finset.card_image_of_injOn, card_filter_range3]
  · norm_num
  intro t1 ht1 t2 ht2 he
  simp only [Finset.coe_filter, Set.mem_setOf_eq, Finset.mem_range] at ht1 ht2
  have he2 : 9 * (3 * R + t1) + p.getD (3 * R + t1) 0
      = 9 * (3 * R + t2) + p.getD (3 * R + t2) 0 := he
  have hp1 : p.getD (3 * R + t1) 0 < 9 := perm_getD_lt h9 (by omega)
  have hp2 : p.getD (3 * R + t2) 0 < 9 := perm_getD_lt h9 (by omega)
  omega

theorem boxCheck_iff {p : List Nat} (hlen : p.length = 9) (h9 : ∀ v ∈ p, v < 9) :
    boxCheck (pathOfPerm p) = true ↔
      ∀ R, R < 3 → ∀ C, C < 3 →
        (if (p.getD (3 * R) 0) / 3 = C then 1 else 0) +
        ((if (p.getD (3 * R + 1) 0) / 3 = C then 1 else 0) +
         (if (p.getD (3 * R + 2) 0) / 3 = C then 1 else 0)) = 1 := by
  unfold boxCheck
  rw [List.all_eq_true]
  constructor
  · intro h R hR C hC
    have hm : new_box R C ∈ boxes := by
      interval_cases R <;> interval_cases C <;> simp [boxes]
    have hb := h _ hm
    rw [beq_iff_eq, len_box_inter hR hC hlen h9] at hb
    exact hb
  · intro h sq hsq
    simp only [boxes, List.mem_cons, List.not_mem_nil, or_false] at hsq
    rcases hsq with rfl | rfl | rfl | rfl | rfl | rfl | rfl | rfl | rfl <;>
      · rw [beq_iff_eq, len_box_inter (by norm_num) (by norm_num) hlen h9]
        exact h _ (by norm_num) _ (by norm_num)

theorem band_cond {v0 v1 v2 : Nat} (h0 : v0 < 3) (h1 : v1 < 3) (h2 : v2 < 3) :
    (∀ C, C < 3 →
        (if v0 = C then 1 else 0) + ((if v1 = C then 1 else 0) +
         (if v2 = C then 1 else 0)) = 1) ↔
      (v0 ≠ v1 ∧ v0 ≠ v2 ∧ v1 ≠ v2) := by
  interval_cases v0 <;> interval_cases v1 <;> interval_cases v2 <;> decide

theorem shift_and_shift {a b : Nat} : ((1 <<< a) &&& (1 <<< b) == 0) = !decide (a = b) := by
  rw [and_shift_eq_zero, Nat.one_shiftLeft, Nat.testBit_two_pow]

theorem beq_eq_decide (a b : Nat) : (a == b) = decide (a = b) := by
  by_cases h : a = b <;> simp [h]

theorem flatMap_one {α β : Type} (l : List α) (g : α → β) :
    (l.flatMap fun x => [g x]) = l.map g := by
  induction l with
  | nil => rfl
  | cons x t ih => simp [List.flatMap_cons, ih]

theorem decide_shift_and_shift {a b : Nat} :
    decide ((1 <<< a) &&& (1 <<< b) = 0) = !decide (a = b) := by
  rw [← beq_eq_decide, shift_and_shift]

/-- The literal transcription of the nine nested `flat_map`s agrees with the
recursive enumerator `permsAux 9 0` they are folded into. -/
theorem permutationsSrc_eq : permutationsSrc = permutations := by
  unfold permutationsSrc permutations
  simp only [permsAux, avail, Nat.zero_and, Nat.zero_or, List.map_flatMap, List.map_map,
    List.map_cons, List.map_nil, shift_and_shift, beq_eq_decide, bne,
    decide_shift_and_shift, decide_True, List.filter_true,
    flatMap_one, Function.comp_def]

theorem shift_or_and_shift {a b c : Nat} :
    (((1 <<< a) ||| (1 <<< b)) &&& (1 <<< c) == 0)
      = !(decide (a = c) || decide (b = c)) := by
  rw [and_shift_eq_zero, Nat.testBit_or, Nat.one_shiftLeft, Nat.one_shiftLeft,
    Nat.testBit_two_pow, Nat.testBit_two_pow]

theorem ok_iff_boxCheck {p : List Nat} (hlen : p.length = 9)
    (h9 : ∀ v ∈ p, v < 9) : boxCheck (pathOfPerm p) = ok 9 0 p := by
  obtain ⟨c0, c1, c2, c3, c4, c5, c6, c7, c8, rfl⟩ :
      ∃ c0 c1 c2 c3 c4 c5 c6 c7 c8,
        p = [c0, c1, c2, c3, c4, c5, c6, c7, c8] := by
    rcases p with _ | ⟨c0, p⟩
    · simp only [List.length_nil] at hlen; omega
    rcases p with _ | ⟨c1, p⟩
    · simp only [List.length_cons, List.length_nil] at hlen; omega
    rcases p with _ | ⟨c2, p⟩
    · simp only [List.length_cons, List.length_nil] at hlen; omega
    rcases p with _ | ⟨c3, p⟩
    · simp only [List.length_cons, List.length_nil] at hlen; omega
    rcases p with _ | ⟨c4, p⟩
    · simp only [List.length_cons, List.length_nil] at hlen; omega
    rcases p with _ | ⟨c5, p⟩
    · simp only [List.length_cons, List.length_nil] at hlen; omega
    rcases p with _ | ⟨c6, p⟩
    · simp only [List.length_cons, List.length_nil] at hlen; omega
    rcases p with _ | ⟨c7, p⟩
    · simp only [List.length_cons, List.length_nil] at hlen; omega
    rcases p with _ | ⟨c8, p⟩
    · simp only [List.length_cons, List.length_nil] at hlen; omega
    rcases p with _ | ⟨c9, p⟩
    · exact ⟨c0, c1, c2, c3, c4, c5, c6, c7, c8, rfl⟩
    · simp only [List.length_cons, List.length_nil] at hlen; omega
  have h0 : c0 < 9 := h9 c0 (by simp)
  have h1 : c1 < 9 := h9 c1 (by simp)
  have h2 : c2 < 9 := h9 c2 (by simp)
  have h3 : c3 < 9 := h9 c3 (by simp)
  have h4 : c4 < 9 := h9 c4 (by simp)
  have h5 : c5 < 9 := h9 c5 (by simp)
  have h6 : c6 < 9 := h9 c6 (by simp)
  have h7 : c7 < 9 := h9 c7 (by simp)
  have h8 : c8 < 9 := h9 c8 (by simp)
  apply Bool.eq_iff_iff.mpr
  rw [boxCheck_iff (by simp) h9]
  have hok : (ok 9 0 [c0, c1, c2, c3, c4, c5, c6, c7, c8] = true) ↔
      ((¬c0 / 3 = c1 / 3 ∧ ¬c0 / 3 = c2 / 3 ∧ ¬c1 / 3 = c2 / 3) ∧
       (¬c3 / 3 = c4 / 3 ∧ ¬c3 / 3 = c5 / 3 ∧ ¬c4 / 3 = c5 / 3) ∧
       (¬c6 / 3 = c7 / 3 ∧ ¬c6 / 3 = c8 / 3 ∧ ¬c7 / 3 = c8 / 3)) := by
    simp [ok, shift_and_shift, shift_or_and_shift]
    tauto
  rw [hok]
  constructor
  · intro h
    refine ⟨?_, ?_, ?_⟩
    · exact (band_cond (by omega) (by omega) (by omega)).mp
        (fun C hC => h 0 (by norm_num) C hC)
    · exact (band_cond (by omega) (by omega) (by omega)).mp
        (fun C hC => h 1 (by norm_num) C hC)
    · exact (band_cond (by omega) (by omega) (by omega)).mp
        (fun C hC => h 2 (by norm_num) C hC)
  · rintro ⟨hB0, hB1, hB2⟩
    intro R hR C hC
    interval_cases R
    · exact (band_cond (by omega) (by omega) (by omega)).mpr hB0 C hC
    · exact (band_cond (by omega) (by omega) (by omega)).mpr hB1 C hC
    · exact (band_cond (by omega) (by omega) (by omega)).mpr hB2 C hC

theorem bandFree_update {taken x : Nat} (hx : x ∈ avail taken) (j : Nat) :
    bandFree (taken ||| (1 <<< x)) j =
      if x / 3 == j then bandFree taken j - 1 else bandFree taken j := by
  unfold bandFree
  rw [avail_update hx, List.filter_filter]
  have hcomm : (avail taken).filter (fun a => (a / 3 == j) && (a != x))
      = ((avail taken).filter fun a => a / 3 == j).filter fun a => a != x := by
    rw [List.filter_filter]
    apply List.filter_congr
    intro a _
    rw [Bool.and_comm]
  rw [hcomm]
  by_cases hj : x / 3 == j
  · rw [if_pos hj]
    have hnd : ((avail taken).filter fun a => a / 3 == j).Nodup :=
      (avail_nodup taken).filter _
    have hxm : x ∈ (avail taken).filter fun a => a / 3 == j :=
      List.mem_filter.mpr ⟨hx, hj⟩
    rw [← hnd.erase_eq_filter x, List.length_erase_of_mem hxm]
  · rw [if_neg hj]
    congr 1
    apply List.filter_eq_self.mpr
    intro a ha
    rcases List.mem_filter.mp ha with ⟨-, haj⟩
    have : a ≠ x := by
      intro he
      subst he
      rw [haj] at hj
      exact hj rfl
    simpa using this

theorem sum_by_band (v : Nat → Nat) : ∀ (l : List Nat), (∀ x ∈ l, x < 9) →
    (l.map fun x => v (x / 3)).sum =
      ((l.filter fun x => x / 3 == 0).length) * v 0 +
      (((l.filter fun x => x / 3 == 1).length) * v 1 +
       ((l.filter fun x => x / 3 == 2).length) * v 2) := by
  intro l
  induction l with
  | nil => intro _; simp
  | cons x t ih =>
    intro h
    have hx : x < 9 := h x (by simp)
    have ht := ih fun y hy => h y (by simp [hy])
    have hx3 : x / 3 = 0 ∨ x / 3 = 1 ∨ x / 3 = 2 := by omega
    rcases hx3 with hx3 | hx3 | hx3 <;>
    · simp only [List.map_cons, List.sum_cons, List.filter_cons, hx3, ht]
      norm_num
      ring

theorem permsAux_count_ok : ∀ (fuel taken used : Nat),
    ((permsAux fuel taken).filter (ok fuel used)).length =
      countOK fuel used (bandFree taken 0) (bandFree taken 1) (bandFree taken 2) := by
  intro fuel
  induction fuel with
  | zero =>
    intro taken used
    simp [permsAux, ok, countOK]
  | succ fuel ih =>
    intro taken used
    have hstep : permsAux (fuel + 1) taken
        = (avail taken).flatMap
            (fun x => (permsAux fuel (taken ||| (1 <<< x))).map fun rest => x :: rest) := rfl
    rw [hstep, List.filter_flatMap]
    have hlen1 : ∀ (L : List Nat) (g : Nat → List (List Nat)),
        (L.flatMap g).length = (L.map fun x => (g x).length).sum := by
      intro L g
      simp [List.flatMap, List.map_map, Function.comp_def]
    rw [hlen1]
    set used2 := if (fuel + 1) % 3 == 0 then 0 else used with hused2
    set v : Nat → Nat := fun j => if used2 &&& (1 <<< j) == 0 then
        countOK fuel (used2 ||| (1 <<< j))
          (if j == 0 then bandFree taken 0 - 1 else bandFree taken 0)
          (if j == 1 then bandFree taken 1 - 1 else bandFree taken 1)
          (if j == 2 then bandFree taken 2 - 1 else bandFree taken 2)
        else 0 with hv
    have hpt : ∀ x ∈ avail taken,
        (((permsAux fuel (taken ||| (1 <<< x))).map (fun rest => x :: rest)).filter
            (ok (fuel + 1) used)).length
        = v (x / 3) := by
      intro x hx
      rw [List.filter_map, List.length_map, hv]
      have hpred : ((ok (fuel + 1) used) ∘ fun rest => x :: rest)
          = fun rest => (used2 &&& (1 <<< (x / 3)) == 0) &&
              ok fuel (used2 ||| (1 <<< (x / 3))) rest := by
        funext rest
        simp only [Function.comp_apply, ok, Nat.add_sub_cancel]
      rw [hpred]
      by_cases htest : (used2 &&& (1 <<< (x / 3)) == 0) = true
      · have hsimpl : (fun rest => (used2 &&& (1 <<< (x / 3)) == 0) &&
            ok fuel (used2 ||| (1 <<< (x / 3))) rest)
            = ok fuel (used2 ||| (1 <<< (x / 3))) := by
          funext rest
          rw [htest, Bool.true_and]
        rw [hsimpl, ih]
        rw [bandFree_update hx 0, bandFree_update hx 1, bandFree_update hx 2]
        simp only [htest, if_true]
      · have hf : (used2 &&& (1 <<< (x / 3)) == 0) = false :=
          Bool.eq_false_iff.mpr htest
        have hsimpl : (fun rest => (used2 &&& (1 <<< (x / 3)) == 0) &&
            ok fuel (used2 ||| (1 <<< (x / 3))) rest) = fun _ => false := by
          funext rest
          rw [hf, Bool.false_and]
        rw [hsimpl]
        simp only [hf, Bool.false_eq_true, if_false]
        simp
    rw [List.map_congr_left hpt]
    rw [sum_by_band v (avail taken) (fun x hx => (mem_avail.mp hx).1)]
    rw [countOK, ← hused2]
    show (bandFree taken 0) * v 0 + ((bandFree taken 1) * v 1 + (bandFree taken 2) * v 2) = _
    rw [hv]
    have e0 : (1 : Nat) <<< 0 = 1 := rfl
    have e1 : (1 : Nat) <<< 1 = 2 := rfl
    have e2 : (1 : Nat) <<< 2 = 4 := rfl
    simp only [mul_ite, mul_zero, e0, e1, e2]
    norm_num

/-!  ## Claim theorems  -/

/-- C9: `Bitfield::new(row, col)` fails (panics) exactly when `row ≥ 9` or
`col ≥ 9`; for every in-range pair it succeeds with a bitfield of
cardinality one, and distinct in-range pairs give distinct bit patterns. -/
theorem new_spec (row col : Nat) :
    (Bitfield.new row col = none ↔ 9 ≤ row ∨ 9 ≤ col) ∧
    (row < 9 → col < 9 →
      Bitfield.new row col = some (Bitfield.cell row col) ∧
      Bitfield.len (Bitfield.cell row col) = 1 ∧
      ∀ row2 col2, row2 < 9 → col2 < 9 → (row, col) ≠ (row2, col2) →
        Bitfield.cell row col ≠ Bitfield.cell row2 col2) := by
  constructor
  · unfold Bitfield.new
    by_cases hr : row < 9 <;> by_cases hc : col < 9 <;> simp [hr, hc] <;> omega
  · intro hr hc
    refine ⟨by simp [Bitfield.new, hr, hc], ?_, ?_⟩
    · rw [cell_eq_pow]
      exact len_two_pow (by omega)
    · intro row2 col2 hr2 hc2 hne he
      exact hne (by
        obtain ⟨h1, h2⟩ := cell_injective hr hc hr2 hc2 he
        simp [h1, h2])

/-- Witness for C9 at the concrete cells (0,0) and (0,1). -/
theorem new_spec_witness :
    Bitfield.new 0 0 = some (Bitfield.cell 0 0) ∧
    Bitfield.len (Bitfield.cell 0 0) = 1 ∧
    Bitfield.cell 0 0 ≠ Bitfield.cell 0 1 := by
  have h := (new_spec 0 0).2 (by decide) (by decide)
  exact ⟨h.1, h.2.1, h.2.2 0 1 (by decide) (by decide) (by decide)⟩

/-- C7: `Board::parse` returns `None` exactly when the input's length is
not 81, or it holds a character other than `'1'..'9'` and `'.'` (a
character `Digit::parse` rejects), or the per-digit clue-sets read off the
string are not pairwise disjoint, or some digit appears in more than nine
cells; otherwise it returns a board whose clue-set for each digit is
exactly the set of row-major positions where that digit's character
appears. -/
theorem parse_spec (input : List Char) :
    (Board.parse input = none ↔
      input.length ≠ 81 ∨
      (∃ ch ∈ input, ch ≠ '.' ∧ Digit.parse ch = none) ∨
      (∃ d1, d1 < 9 ∧ ∃ d2, d2 < 9 ∧ d1 ≠ d2 ∧
        ¬ Disjoint (clueCells input d1) (clueCells input d2)) ∨
      (∃ d, d < 9 ∧ 9 < (clueCells input d).card)) ∧
    (∀ board, Board.parse input = some board → ∀ d, d < 9 →
      bits (board.get d) = clueCells input d) := by
  by_cases hlen : input.length = 81
  case neg =>
    have hparse : Board.parse input = none := by
      unfold Board.parse
      rw [if_pos hlen]
    refine ⟨?_, ?_⟩
    · rw [hparse]
      simp only [true_iff]
      exact Or.inl hlen
    · intro board hb
      rw [hparse] at hb
      simp at hb
  case pos =>
    have hne : ¬ input.length ≠ 81 := by omega
    cases haux : Board.parseAux Board.empty (List.zip (List.range 81) input) with
    | none =>
      have hparse : Board.parse input = none := by
        unfold Board.parse
        rw [if_neg hne, haux]
      rcases (parseAux_none_iff _ _).mp haux with ⟨⟨idx, ch⟩, hmem, hq1, hq2⟩
      rcases (mem_zip_range hlen).mp hmem with ⟨hidx, hch⟩
      have hchmem : ch ∈ input := by
        rw [← hch, List.getD_eq_getElem _ _ (by omega)]
        exact List.getElem_mem (by omega)
      refine ⟨?_, ?_⟩
      · rw [hparse]
        simp only [true_iff]
        exact Or.inr (Or.inl ⟨ch, hchmem, hq1, hq2⟩)
      · intro board hb
        rw [hparse] at hb
        simp at hb
    | some b2 =>
      rcases parse_bits hlen haux with ⟨hblen, hprops⟩
      by_cases hval : Board.valid b2 = true
      · have hparse : Board.parse input = some b2 := by
          unfold Board.parse
          rw [if_neg hne, haux]
          simp [hval]
        rcases (valid_iff b2).mp hval with ⟨hlens, hdisj⟩
        refine ⟨?_, ?_⟩
        · rw [hparse]
          have hfalse : (some b2 = (none : Option Board)) ↔ False := by simp
          rw [hfalse, false_iff]
          push_neg
          refine ⟨hlen, ?_, ?_, ?_⟩
          · intro ch hchmem hchdot
            by_contra hnone
            have : Board.parseAux Board.empty (List.zip (List.range 81) input) = none := by
              apply (parseAux_none_iff _ _).mpr
              rcases List.mem_iff_getElem.mp hchmem with ⟨n, hn, hg⟩
              refine ⟨(n, ch), (mem_zip_range hlen).mpr ⟨by omega, ?_⟩, hchdot, hnone⟩
              rw [List.getD_eq_getElem _ _ hn, hg]
            rw [this] at haux
            exact absurd haux (by simp)
          · intro d1 hd1 d2 hd2 hne12
            rw [← (hprops d1 hd1).2, ← (hprops d2 hd2).2]
            exact (and_eq_zero_iff_disjoint (hprops d1 hd1).1 (hprops d2 hd2).1).mp
              (hdisj d1 hd1 d2 hd2 hne12)
          · intro d hd
            rw [← (hprops d hd).2, ← len_eq_card_bits (hprops d hd).1]
            exact hlens d hd
        · intro board hb d hd
          rw [hparse] at hb
          rcases Option.some.injEq .. ▸ hb with rfl
          exact (hprops d hd).2
      · have hparse : Board.parse input = none := by
          unfold Board.parse
          rw [if_neg hne, haux]
          simp [hval]
        refine ⟨?_, ?_⟩
        · rw [hparse]
          simp only [true_iff]
          rw [valid_iff] at hval
          rcases Classical.not_and_iff_or_not_not.mp hval with hv1 | hv2
          · push_neg at hv1
            rcases hv1 with ⟨d, hd, hcard⟩
            refine Or.inr (Or.inr (Or.inr ⟨d, hd, ?_⟩))
            rw [← (hprops d hd).2, ← len_eq_card_bits (hprops d hd).1]
            omega
          · push_neg at hv2
            rcases hv2 with ⟨d1, hd1, d2, hd2, hne12, hnz⟩
            refine Or.inr (Or.inr (Or.inl ⟨d1, hd1, d2, hd2, hne12, ?_⟩))
            rw [← (hprops d1 hd1).2, ← (hprops d2 hd2).2]
            exact fun hdj =>
              hnz ((and_eq_zero_iff_disjoint (hprops d1 hd1).1 (hprops d2 hd2).1).mpr hdj)
        · intro board hb
          rw [hparse] at hb
          simp at hb

/-- Witness for C7: the all-dots input parses to the empty board, whose
clue-set for the first digit is empty, matching its (empty) cells in the
string. -/
theorem parse_spec_witness :
    bits (Board.empty.get 0) = clueCells (List.replicate 81 '.') 0 :=
  (parse_spec (List.replicate 81 '.')).2 Board.empty (by decide) 0 (by decide)

/-- C1: `solve_helper` returns `some` exactly when a choice of one path per
candidate list exists whose paths are pairwise disjoint and disjoint from
`taken_spaces`; any returned assignment is such a choice (one path per
list, each from its list, pairwise disjoint, all avoiding `taken_spaces`),
and a `none` result means no such choice exists. -/
theorem solve_helper_correct (possible_paths : List (List Nat)) (taken_spaces : Nat) :
    ((∃ output, solve_helper possible_paths taken_spaces = some output) ↔
      (∃ output, validChoice possible_paths taken_spaces output)) ∧
    (∀ output, solve_helper possible_paths taken_spaces = some output →
      validChoice possible_paths taken_spaces output) ∧
    (solve_helper possible_paths taken_spaces = none →
      ∀ output, ¬ validChoice possible_paths taken_spaces output) := by
  refine ⟨⟨?_, ?_⟩, solve_helper_sound _ _, solve_helper_complete _ _⟩
  · rintro ⟨out, h⟩
    exact ⟨out, solve_helper_sound _ _ out h⟩
  · rintro ⟨out, hout⟩
    cases h : solve_helper possible_paths taken_spaces with
    | some o => exact ⟨o, rfl⟩
    | none => exact absurd hout (solve_helper_complete _ _ h out)

/-- Witness for C1: on the concrete candidate lists `[[1], [2]]` with no
taken spaces, the search returns `[1, 2]`, which is a valid choice. -/
theorem solve_helper_correct_witness : validChoice [[1], [2]] 0 [1, 2] :=
  (solve_helper_correct [[1], [2]] 0).2.1 [1, 2] (by decide)

/-- C2: for a board whose nine clue-sets are pairwise disjoint (and within
the 81-bit cell universe), the candidate list `solve` builds for each digit
is exactly the paths of the universe, in universe order, that are supersets
of the digit's clue-set and disjoint from the union of the other eight
digits' clue-sets. -/
theorem possible_paths_spec (board : Board) (path_db : List Nat)
    (hmask : ∀ e, e < 9 → board.get e < 2 ^ 81)
    (hdisj : ∀ e1, e1 < 9 → ∀ e2, e2 < 9 → e1 ≠ e2 →
      board.get e1 &&& board.get e2 = 0) :
    possible_paths board path_db = Digit.iter.map (specCandidates board path_db) := by
  unfold possible_paths
  apply List.map_congr_left
  intro d hd
  have hd9 := mem_digit_iter.mp hd
  dsimp only
  rw [List.filter_filter]
  unfold specCandidates
  apply List.filter_congr
  intro p _
  rw [opposing_eq hd9 hmask hdisj, Bool.and_comm]

/-- Witness for C2 on the empty board with a one-path universe. -/
theorem possible_paths_spec_witness :
    possible_paths Board.empty [5] = Digit.iter.map (specCandidates Board.empty [5]) :=
  possible_paths_spec Board.empty [5]
    (by intro e he; interval_cases e <;> decide)
    (by intro e1 h1 e2 h2 hne; interval_cases e1 <;> interval_cases e2 <;> first | decide | omega)

/-- C3: `generate_paths` yields exactly 46,656 paths: exactly 46,656 of
the 362,880 permutations of `0..8` induce a cell-set meeting each of the
nine 3x3 boxes in exactly one cell. -/
theorem generate_paths_count :
    generate_paths.length = 46656 ∧
    (permutations.filter fun p => boxCheck (pathOfPerm p)).length = 46656 := by
  have hkey : (permutations.filter fun p => boxCheck (pathOfPerm p)).length = 46656 := by
    have hcongr : permutations.filter (fun p => boxCheck (pathOfPerm p))
        = permutations.filter (ok 9 0) := by
      apply List.filter_congr
      intro p hp
      rcases (mem_permsAux 9 0 p).mp hp with ⟨hplen, -, hvals⟩
      exact ok_iff_boxCheck hplen (fun v hv => (hvals v hv).1)
    rw [hcongr]
    show ((permsAux 9 0).filter (ok 9 0)).length = 46656
    rw [permsAux_count_ok]
    have hb0 : bandFree 0 0 = 3 := by decide
    have hb1 : bandFree 0 1 = 3 := by decide
    have hb2 : bandFree 0 2 = 3 := by decide
    rw [hb0, hb1, hb2]
    decide
  refine ⟨?_, hkey⟩
  unfold generate_paths
  rw [List.filter_map, List.length_map]
  simp only [Function.comp_def]
  exact hkey

/-- C4: every cell-set yielded by `generate_paths` has exactly one set bit
in each of the nine rows (`i / 9 = k`), in each of the nine columns
(`i % 9 = k`), and in each of the nine 3x3 boxes. -/
theorem generate_paths_invariant :
    ∀ path ∈ generate_paths, ∀ k, k < 9 →
      ((bits path).filter fun i => i / 9 = k).card = 1 ∧
      ((bits path).filter fun i => i % 9 = k).card = 1 ∧
      Bitfield.len (new_box (k / 3) (k % 3) &&& path) = 1 := by
  intro path hpath k hk
  rcases List.mem_filter.mp hpath with ⟨hmem, hbox⟩
  rcases List.mem_map.mp hmem with ⟨p, hpmem, rfl⟩
  rcases (mem_permsAux 9 0 p).mp hpmem with ⟨hlen, hnd, hvals⟩
  have h9 : ∀ v ∈ p, v < 9 := fun v hv => (hvals v hv).1
  have hlt : pathOfPerm p < 2 ^ 81 := pathOfPerm_lt (by omega) h9
  have hchar : ∀ i, i ∈ bits (pathOfPerm p) ↔ ∃ r, r < 9 ∧ i = 9 * r + p.getD r 0 := by
    intro i
    rw [mem_bits hlt, testBit_pathOfPerm, hlen]
  refine ⟨?_, ?_, ?_⟩
  · have hset : ((bits (pathOfPerm p)).filter fun i => i / 9 = k) = {9 * k + p.getD k 0} := by
      apply Finset.ext
      intro i
      simp only [Finset.mem_filter, Finset.mem_singleton, hchar]
      constructor
      · rintro ⟨⟨r, hr, rfl⟩, hdiv⟩
        have hc : p.getD r 0 < 9 := perm_getD_lt h9 (by omega)
        have : r = k := by omega
        subst this; rfl
      · rintro rfl
        have hc : p.getD k 0 < 9 := perm_getD_lt h9 (by omega)
        exact ⟨⟨k, hk, rfl⟩, by omega⟩
    rw [hset, Finset.card_singleton]
  · rcases perm_exists_unique_row hlen hnd h9 hk with ⟨r0, hr0, hr0k, huniq⟩
    have hset : ((bits (pathOfPerm p)).filter fun i => i % 9 = k) = {9 * r0 + k} := by
      apply Finset.ext
      intro i
      simp only [Finset.mem_filter, Finset.mem_singleton, hchar]
      constructor
      · rintro ⟨⟨r, hr, rfl⟩, hmod⟩
        have hc : p.getD r 0 < 9 := perm_getD_lt h9 (by omega)
        have hpk : p.getD r 0 = k := by omega
        have := huniq r hr hpk
        subst this
        omega
      · rintro rfl
        refine ⟨⟨r0, hr0, by omega⟩, by omega⟩
    rw [hset, Finset.card_singleton]
  · have hall := List.all_eq_true.mp hbox
    have hmem2 : new_box (k / 3) (k % 3) ∈ boxes := by
      interval_cases k <;> simp [boxes]
    have := hall _ hmem2
    simpa using this

/-- Witness for C4: the valid path used by the repository's own test,
built from the permutation `[1,4,8,0,3,7,5,2,6]`, checked at row, column
and box 0. -/
theorem generate_paths_invariant_witness :
    ((bits (pathOfPerm [1, 4, 8, 0, 3, 7, 5, 2, 6])).filter fun i => i / 9 = 0).card = 1 ∧
    ((bits (pathOfPerm [1, 4, 8, 0, 3, 7, 5, 2, 6])).filter fun i => i % 9 = 0).card = 1 ∧
    Bitfield.len (new_box 0 0 &&& pathOfPerm [1, 4, 8, 0, 3, 7, 5, 2, 6]) = 1 :=
  generate_paths_invariant (pathOfPerm [1, 4, 8, 0, 3, 7, 5, 2, 6])
    (List.mem_filter.mpr
      ⟨List.mem_map.mpr ⟨[1, 4, 8, 0, 3, 7, 5, 2, 6],
        (mem_permsAux 9 0 _).mpr (by decide), rfl⟩, by decide⟩)
    0 (by decide)

/-- C10: the cell-sets yielded by `generate_paths` are pairwise distinct:
distinct permutations give distinct path bitfields, so no path appears
twice in the universe. -/
theorem generate_paths_distinct : generate_paths.Nodup := by
  unfold generate_paths
  apply List.Nodup.filter
  apply List.Nodup.map_on ?_ (permsAux_nodup 9 0)
  intro x hx y hy hf
  rcases (mem_permsAux 9 0 x).mp hx with ⟨hlx, hndx, hvx⟩
  rcases (mem_permsAux 9 0 y).mp hy with ⟨hly, hndy, hvy⟩
  have h9x : ∀ v ∈ x, v < 9 := fun v hv => (hvx v hv).1
  have h9y : ∀ v ∈ y, v < 9 := fun v hv => (hvy v hv).1
  apply List.ext_getElem (by omega)
  intro r hr1 hr2
  have hbit : (pathOfPerm x).testBit (9 * r + x.getD r 0) = true :=
    (testBit_pathOfPerm _).mpr ⟨r, hr1, rfl⟩
  rw [hf] at hbit
  rcases (testBit_pathOfPerm _).mp hbit with ⟨r2, hr2y, heq⟩
  have hcx : x.getD r 0 < 9 := perm_getD_lt h9x hr1
  have hcy : y.getD r2 0 < 9 := perm_getD_lt h9y hr2y
  have : r2 = r ∧ x.getD r 0 = y.getD r2 0 := by omega
  rcases this with ⟨rfl, hval⟩
  rw [← List.getD_eq_getElem x 0 hr1, ← List.getD_eq_getElem y 0 hr2]
  exact hval

set_option maxHeartbeats 3200000 in
/-- C5: on every well-formed board (nine placements, pairwise-disjoint,
at most nine cells per digit) for which `solve` returns `true` over a
database of nine-cell paths, each digit's final cell-set contains that
digit's original clue-set, the nine final cell-sets are pairwise disjoint,
and each has cardinality exactly nine; and the board parsed from the
canonical clue string is such a board: `solve` succeeds on it with the
full `generate_paths` universe. -/
theorem solve_success_spec :
    (∀ (board : Board) (path_db : List Nat) (board2 : Board),
      board.length = 9 →
      (∀ d, d < 9 → Bitfield.len (board.get d) ≤ 9) →
      (∀ d1, d1 < 9 → ∀ d2, d2 < 9 → d1 ≠ d2 →
        board.get d1 &&& board.get d2 = 0) →
      (∀ p ∈ path_db, Bitfield.len p = 9) →
      solve board path_db = (true, board2) →
      ∀ d, d < 9 →
        Bitfield.contains (board2.get d) (board.get d) = true ∧
        Bitfield.len (board2.get d) = 9 ∧
        ∀ d2, d2 < 9 → d ≠ d2 → board2.get d &&& board2.get d2 = 0) ∧
    (Board.parse canonicalClues = some canonicalBoard ∧
      (solve canonicalBoard generate_paths).1 = true) := by
  constructor
  · intro board path_db board2 hblen hcard hdisj hdb hsolve d hd
    unfold solve at hsolve
    cases hs : solve_helper (possible_paths board path_db) 0 with
    | none => rw [hs] at hsolve; simp at hsolve
    | some assigned =>
      rw [hs] at hsolve
      have hb2 : writeBack board Digit.iter assigned = board2 :=
        congrArg Prod.snd hsolve
      rcases solve_helper_sound _ _ _ hs with ⟨hforall, hpair, -⟩
      have hlen_assigned : assigned.length = 9 := by
        rw [hforall.length_eq]
        rfl
      have hget : ∀ e, e < 9 → board2.get e = assigned.getD e 0 := by
        intro e he
        rw [← hb2, writeBack_get hblen hlen_assigned he]
      have hmem2 : ∀ e, e < 9 → assigned.getD e 0 ∈ path_db ∧
          Bitfield.contains (assigned.getD e 0) (board.get e) = true := by
        intro e he
        have hm := forall₂_mem_getD hforall (show e < assigned.length by omega)
        rw [possible_paths_get board path_db he] at hm
        rcases List.mem_filter.mp hm with ⟨hf1, -⟩
        rcases List.mem_filter.mp hf1 with ⟨hdb2, hcont⟩
        exact ⟨hdb2, hcont⟩
      refine ⟨?_, ?_, ?_⟩
      · rw [hget d hd]
        exact (hmem2 d hd).2
      · rw [hget d hd]
        exact hdb _ (hmem2 d hd).1
      · intro d2 hd2 hne
        rw [hget d hd, hget d2 hd2]
        exact pairwise_disjoint_getD hpair (by omega) (by omega) hne
  · refine ⟨by decide, ?_⟩
    have hlens : canonicalPaths.length = (possible_paths canonicalBoard generate_paths).length := by
      unfold possible_paths canonicalPaths canonicalPerms
      rw [List.length_map, List.length_map]
      rfl
    have hcplen : canonicalPaths.length = 9 := by
      unfold canonicalPaths canonicalPerms
      rw [List.length_map]
      rfl
    have hvc : validChoice (possible_paths canonicalBoard generate_paths) 0 canonicalPaths := by
      refine ⟨?_, ?_, ?_⟩
      · apply forall₂_mem_of_getD hlens
        intro i hi
        have hi9 : i < 9 := by omega
        rw [possible_paths_get canonicalBoard generate_paths hi9]
        interval_cases i <;>
          exact List.mem_filter.mpr ⟨List.mem_filter.mpr ⟨List.mem_filter.mpr
            ⟨List.mem_map.mpr ⟨_, (mem_permsAux 9 0 _).mpr (by decide), rfl⟩,
              by decide⟩, by decide⟩, by decide⟩
      · decide
      · decide
    rcases ((solve_helper_correct (possible_paths canonicalBoard generate_paths) 0).1).mpr
      ⟨canonicalPaths, hvc⟩ with ⟨out, hout⟩
    exact solve_fst_of_some canonicalBoard generate_paths out hout

set_option maxHeartbeats 3200000 in
/-- Witness for C5: the empty board with the nine canonical solution paths
as the universe; `solve` succeeds and the first digit's resulting cell-set
contains its (empty) clue-set, has nine cells, and avoids the others. -/
theorem solve_success_spec_witness :
    Bitfield.contains ((solve Board.empty canonicalPaths).2.get 0)
      (Board.empty.get 0) = true ∧
    Bitfield.len ((solve Board.empty canonicalPaths).2.get 0) = 9 ∧
    ∀ d2, d2 < 9 → 0 ≠ d2 →
      (solve Board.empty canonicalPaths).2.get 0 &&&
        (solve Board.empty canonicalPaths).2.get d2 = 0 :=
  solve_success_spec.1 Board.empty canonicalPaths
    (solve Board.empty canonicalPaths).2 (by decide) (by decide) (by decide)
    (by decide) (by decide) 0 (by decide)

/-- C6: the `permutations` iterator yields exactly 362,880 arrays; every
yielded array is duplicate-free (an ordering of the values `0..8`), and no
array is yielded twice. -/
theorem permutations_spec :
    permutations.length = 362880 ∧
    (∀ p ∈ permutations, p.length = 9 ∧ p.Nodup ∧ ∀ v ∈ p, v < 9) ∧
    permutations.Nodup := by
  refine ⟨?_, ?_, permsAux_nodup 9 0⟩
  · have h := permsAux_length 9 0 (by rw [avail_zero]; simp)
    rw [avail_zero] at h
    simp only [List.length_range] at h
    have h9 : (9 : Nat) - 9 = 0 := rfl
    rw [h9, Nat.factorial_zero, Nat.mul_one] at h
    show (permsAux 9 0).length = 362880
    rw [h]
    decide
  · intro p hp
    rcases (mem_permsAux 9 0 p).mp hp with ⟨hl, hnd, hv⟩
    exact ⟨hl, hnd, fun v hvm => (hv v hvm).1⟩

/-- Witness for C6: the identity ordering is yielded and is duplicate-free. -/
theorem permutations_spec_witness :
    ([0, 1, 2, 3, 4, 5, 6, 7, 8] : List Nat).Nodup :=
  (permutations_spec.2.1 [0, 1, 2, 3, 4, 5, 6, 7, 8]
    ((mem_permsAux 9 0 _).mpr (by decide))).2.1

/-- C8: whenever `solve` reports failure, the board it hands back is
bit-for-bit the board it was given; the board changes only on success. -/
theorem solve_failure_preserves_board (board : Board) (path_db : List Nat)
    (result : Board) (h : solve board path_db = (false, result)) :
    result = board := by
  unfold solve at h
  cases hs : solve_helper (possible_paths board path_db) 0 with
  | none => rw [hs] at h; exact (Prod.mk.injEq _ _ _ _ ▸ h).2.symm
  | some paths => rw [hs] at h; simp at h

/-- Witness for C8: an empty path database cannot solve the empty board,
and the board is returned unchanged. -/
theorem solve_failure_preserves_board_witness :
    (solve Board.empty []).2 = Board.empty :=
  solve_failure_preserves_board Board.empty [] (solve Board.empty []).2
    (by decide)

end Sudoku
